import Mathlib

/-!
Verification of the MySupportImprover geometry-analysis pipeline.

Each section shallowly embeds one part of the Python source
(`analyze_mesh.py`, `geometry_utils.py`, `MySupportImprover.py`) in Lean:
pure numeric loops become folds or structural recursions, numpy float
arithmetic is modelled by exact `Rat`/`Real` arithmetic, and array indexing
becomes `List.getD`.  Theorems settle the frozen specification claims.
-/

set_option maxHeartbeats 1000000

namespace Obstruct

/-- A 3D point with rational coordinates (model of one row of a numpy
`Nx3` float array). -/
structure P3 where
  x : ℚ
  y : ℚ
  z : ℚ
deriving DecidableEq

/-- Minimum of three values, as in Python `min(a, b, c)`. -/
def min3 (a b c : ℚ) : ℚ := min a (min b c)

/-- Maximum of three values, as in Python `max(a, b, c)`. -/
def max3 (a b c : ℚ) : ℚ := max a (max b c)

/-- Array access `vertices[i]`, defaulting to the origin. -/
def vtx (vertices : List P3) (i : ℕ) : P3 := vertices.getD i ⟨0, 0, 0⟩

/-- The test `x < min_x or x > max_x or z < min_z or z > max_z` of the
obstruction scan, with the box already expanded by `tol` on each side. -/
def BBoxMiss (x z tol : ℚ) (vertices : List P3) (face : ℕ × ℕ × ℕ) : Prop :=
  let v0 := vtx vertices face.1
  let v1 := vtx vertices face.2.1
  let v2 := vtx vertices face.2.2
  x < min3 v0.x v1.x v2.x - tol ∨ x > max3 v0.x v1.x v2.x + tol ∨
    z < min3 v0.z v1.z v2.z - tol ∨ z > max3 v0.z v1.z v2.z + tol

instance (x z tol : ℚ) (vertices : List P3) (face : ℕ × ℕ × ℕ) :
    Decidable (BBoxMiss x z tol vertices face) := by
  unfold BBoxMiss; infer_instance

/-- The barycentric denominator `denom` of a face, as in the source. -/
def faceDenom (vertices : List P3) (face : ℕ × ℕ × ℕ) : ℚ :=
  let v0 := vtx vertices face.1
  let v1 := vtx vertices face.2.1
  let v2 := vtx vertices face.2.2
  (v1.z - v2.z) * (v0.x - v2.x) + (v2.x - v1.x) * (v0.z - v2.z)

/-- The barycentric coordinate `a` of `(x, z)` in a face. -/
def baryA (x z : ℚ) (vertices : List P3) (face : ℕ × ℕ × ℕ) : ℚ :=
  let v1 := vtx vertices face.2.1
  let v2 := vtx vertices face.2.2
  ((v1.z - v2.z) * (x - v2.x) + (v2.x - v1.x) * (z - v2.z)) /
    faceDenom vertices face

/-- The barycentric coordinate `b` of `(x, z)` in a face. -/
def baryB (x z : ℚ) (vertices : List P3) (face : ℕ × ℕ × ℕ) : ℚ :=
  let v0 := vtx vertices face.1
  let v2 := vtx vertices face.2.2
  ((v2.z - v0.z) * (x - v2.x) + (v0.x - v2.x) * (z - v2.z)) /
    faceDenom vertices face

/-- The barycentric coordinate `c = 1 - a - b`. -/
def baryC (x z : ℚ) (vertices : List P3) (face : ℕ × ℕ × ℕ) : ℚ :=
  1 - baryA x z vertices face - baryB x z vertices face

/-- The test `a >= -0.1 and b >= -0.1 and c >= -0.1`. -/
def BaryOK (x z : ℚ) (vertices : List P3) (face : ℕ × ℕ × ℕ) : Prop :=
  baryA x z vertices face ≥ -(1 / 10) ∧ baryB x z vertices face ≥ -(1 / 10) ∧
    baryC x z vertices face ≥ -(1 / 10)

instance (x z : ℚ) (vertices : List P3) (face : ℕ × ℕ × ℕ) :
    Decidable (BaryOK x z vertices face) := by
  unfold BaryOK; infer_instance

/-- Interpolated height `y = a*v0[1] + b*v1[1] + c*v2[1]` of the vertical
ray through `(x, z)` on a face. -/
def interpHeight (x z : ℚ) (vertices : List P3) (face : ℕ × ℕ × ℕ) : ℚ :=
  baryA x z vertices face * (vtx vertices face.1).y +
    baryB x z vertices face * (vtx vertices face.2.1).y +
    baryC x z vertices face * (vtx vertices face.2.2).y

/-- Loop body of `_find_obstruction_height_in_mesh` (MySupportImprover.py
lines 2047-2069): given the running `highest` value and one face, return
the updated `highest`.  `tol` is the horizontal bounding-box expansion
(`tolerance`, default 0.5) and `eps` the clearance below `max_y`
(`max_y_epsilon`, default 0.05). -/
def obstructionStep (x z max_y tol eps : ℚ) (vertices : List P3)
    (highest : ℚ) (face : ℕ × ℕ × ℕ) : ℚ :=
  if BBoxMiss x z tol vertices face then highest
  else if |faceDenom vertices face| < 1 / 10 ^ 10 then highest
  else if BaryOK x z vertices face then
    if interpHeight x z vertices face < max_y - eps ∧
        interpHeight x z vertices face > highest then
      interpHeight x z vertices face
    else highest
  else highest

/-- `_find_obstruction_height_in_mesh` (MySupportImprover.py lines
2041-2071): the highest qualifying interpolated height below `max_y`,
starting from build-plate level 0. -/
def find_obstruction_height_in_mesh (x z max_y : ℚ) (vertices : List P3)
    (indices : List (ℕ × ℕ × ℕ)) (tol eps : ℚ) : ℚ :=
  indices.foldl (obstructionStep x z max_y tol eps vertices) 0

/-- `_find_obstruction_height` (MySupportImprover.py lines 4665-4728).  Its
loop body is identical to `_find_obstruction_height_in_mesh` with the
inlined constants `tolerance = 0.5` and clearance gap `0.5`. -/
def find_obstruction_height (x z max_y : ℚ) (vertices : List P3)
    (indices : List (ℕ × ℕ × ℕ)) : ℚ :=
  indices.foldl (obstructionStep x z max_y (1 / 2) (1 / 2) vertices) 0

/-- A face qualifies for the obstruction scan: it passes the expanded
horizontal bounding-box test, has a non-negligible barycentric denominator,
all three barycentric coordinates at least -0.1, and interpolated height
below `max_y - eps`. -/
def Qualifies (x z max_y tol eps : ℚ) (vertices : List P3)
    (face : ℕ × ℕ × ℕ) : Prop :=
  ¬ BBoxMiss x z tol vertices face ∧
    ¬ |faceDenom vertices face| < 1 / 10 ^ 10 ∧
    BaryOK x z vertices face ∧
    interpHeight x z vertices face < max_y - eps

instance (x z max_y tol eps : ℚ) (vertices : List P3) (face : ℕ × ℕ × ℕ) :
    Decidable (Qualifies x z max_y tol eps vertices face) := by
  unfold Qualifies; infer_instance

theorem obstructionStep_eq (x z max_y tol eps : ℚ) (vertices : List P3)
    (h : ℚ) (face : ℕ × ℕ × ℕ) :
    obstructionStep x z max_y tol eps vertices h face =
      if Qualifies x z max_y tol eps vertices face then
        max h (interpHeight x z vertices face)
      else h := by
  by_cases hb : BBoxMiss x z tol vertices face
  · have hQ : ¬ Qualifies x z max_y tol eps vertices face := fun q => q.1 hb
    rw [obstructionStep, if_pos hb, if_neg hQ]
  · by_cases hd : |faceDenom vertices face| < 1 / 10 ^ 10
    · have hQ : ¬ Qualifies x z max_y tol eps vertices face := fun q => q.2.1 hd
      rw [obstructionStep, if_neg hb, if_pos hd, if_neg hQ]
    · by_cases hk : BaryOK x z vertices face
      · by_cases hy : interpHeight x z vertices face < max_y - eps
        · have hQ : Qualifies x z max_y tol eps vertices face := ⟨hb, hd, hk, hy⟩
          by_cases hgt : h < interpHeight x z vertices face
          · rw [obstructionStep, if_neg hb, if_neg hd, if_pos hk,
              if_pos (⟨hy, hgt⟩ : _ ∧ _), if_pos hQ, max_eq_right hgt.le]
          · have hle : interpHeight x z vertices face ≤ h := not_lt.mp hgt
            rw [obstructionStep, if_neg hb, if_neg hd, if_pos hk,
              if_neg (fun hc : _ ∧ _ => hgt hc.2), if_pos hQ, max_eq_left hle]
        · have hQ : ¬ Qualifies x z max_y tol eps vertices face := fun q => hy q.2.2.2
          rw [obstructionStep, if_neg hb, if_neg hd, if_pos hk,
            if_neg (fun hc : _ ∧ _ => hy hc.1), if_neg hQ]
      · have hQ : ¬ Qualifies x z max_y tol eps vertices face := fun q => hk q.2.2.1
        rw [obstructionStep, if_neg hb, if_neg hd, if_neg hk, if_neg hQ]

/-- The interpolated heights of the qualifying faces of a list, in order. -/
def qualifyingHeights (x z max_y tol eps : ℚ) (vertices : List P3)
    (indices : List (ℕ × ℕ × ℕ)) : List ℚ :=
  (indices.filter fun f => decide (Qualifies x z max_y tol eps vertices f)).map
    (interpHeight x z vertices)

theorem qualifyingHeights_cons_pos (x z max_y tol eps : ℚ) (vertices : List P3)
    (f : ℕ × ℕ × ℕ) (rest : List (ℕ × ℕ × ℕ))
    (hq : Qualifies x z max_y tol eps vertices f) :
    qualifyingHeights x z max_y tol eps vertices (f :: rest) =
      interpHeight x z vertices f ::
        qualifyingHeights x z max_y tol eps vertices rest := by
  unfold qualifyingHeights
  rw [List.filter_cons_of_pos (by simpa using hq), List.map_cons]

theorem qualifyingHeights_cons_neg (x z max_y tol eps : ℚ) (vertices : List P3)
    (f : ℕ × ℕ × ℕ) (rest : List (ℕ × ℕ × ℕ))
    (hq : ¬ Qualifies x z max_y tol eps vertices f) :
    qualifyingHeights x z max_y tol eps vertices (f :: rest) =
      qualifyingHeights x z max_y tol eps vertices rest := by
  unfold qualifyingHeights
  rw [List.filter_cons_of_neg (by simpa using hq)]

theorem foldl_obstruction (x z max_y tol eps : ℚ) (vertices : List P3) :
    ∀ (indices : List (ℕ × ℕ × ℕ)) (h : ℚ),
      indices.foldl (obstructionStep x z max_y tol eps vertices) h =
        (qualifyingHeights x z max_y tol eps vertices indices).foldl max h := by
  intro indices
  induction indices with
  | nil => intro h; rfl
  | cons f rest ih =>
    intro h
    rw [List.foldl_cons, obstructionStep_eq]
    by_cases hq : Qualifies x z max_y tol eps vertices f
    · rw [if_pos hq, qualifyingHeights_cons_pos _ _ _ _ _ _ _ _ hq,
        List.foldl_cons]
      exact ih (max h (interpHeight x z vertices f))
    · rw [if_neg hq, qualifyingHeights_cons_neg _ _ _ _ _ _ _ _ hq]
      exact ih h

theorem le_foldl_max : ∀ (l : List ℚ) (h : ℚ), h ≤ l.foldl max h
  | [], _ => le_refl _
  | a :: l, h => le_trans (le_max_left h a) (le_foldl_max l (max h a))

theorem foldl_max_mem : ∀ (l : List ℚ) (h : ℚ),
    l.foldl max h = h ∨ l.foldl max h ∈ l
  | [], _ => Or.inl rfl
  | a :: l, h => by
    rw [List.foldl_cons]
    rcases foldl_max_mem l (max h a) with he | hm
    · rcases max_choice h a with h1 | h2
      · exact Or.inl (by rw [he, h1])
      · exact Or.inr (by rw [he, h2]; exact List.mem_cons_self a l)
    · exact Or.inr (List.mem_cons_of_mem a hm)

/-- C9: for every query point `(x, z)`, ceiling `max_y`, and mesh, the
obstruction raycast returns 0 when no face qualifies and otherwise the
larger of 0 and the maximum interpolated height over all qualifying faces;
the result is always non-negative and is either 0 or strictly below
`max_y` minus the clearance margin.  The final conjunct carries the same
facts over to `_find_obstruction_height`, whose loop body inlines
`tol = 0.5` and clearance `0.5`. -/
theorem claim_C9_obstruction_height (x z max_y tol eps : ℚ)
    (vertices : List P3) (indices : List (ℕ × ℕ × ℕ)) :
    ((∀ f ∈ indices, ¬ Qualifies x z max_y tol eps vertices f) →
        find_obstruction_height_in_mesh x z max_y vertices indices tol eps = 0) ∧
    find_obstruction_height_in_mesh x z max_y vertices indices tol eps =
      (qualifyingHeights x z max_y tol eps vertices indices).foldl max 0 ∧
    0 ≤ find_obstruction_height_in_mesh x z max_y vertices indices tol eps ∧
    (find_obstruction_height_in_mesh x z max_y vertices indices tol eps = 0 ∨
      find_obstruction_height_in_mesh x z max_y vertices indices tol eps <
        max_y - eps) ∧
    find_obstruction_height x z max_y vertices indices =
      find_obstruction_height_in_mesh x z max_y vertices indices
        (1 / 2) (1 / 2) := by
  have key : find_obstruction_height_in_mesh x z max_y vertices indices tol eps =
      (qualifyingHeights x z max_y tol eps vertices indices).foldl max 0 :=
    foldl_obstruction x z max_y tol eps vertices indices 0
  refine ⟨?_, key, ?_, ?_, rfl⟩
  · intro hnone
    have hfil : indices.filter
        (fun f => decide (Qualifies x z max_y tol eps vertices f)) = [] := by
      rw [List.filter_eq_nil_iff]
      intro f hf
      simpa using hnone f hf
    rw [key]; unfold qualifyingHeights; rw [hfil]; rfl
  · rw [key]; exact le_foldl_max _ 0
  · rw [key]
    rcases foldl_max_mem (qualifyingHeights x z max_y tol eps vertices indices)
        0 with he | hm
    · exact Or.inl he
    · right
      unfold qualifyingHeights at hm
      rcases List.mem_map.mp hm with ⟨f, hfmem, hfe⟩
      have hq : Qualifies x z max_y tol eps vertices f := by
        have := (List.mem_filter.mp hfmem).2
        simpa using this
      unfold qualifyingHeights
      rw [← hfe]
      exact hq.2.2.2

end Obstruct

namespace MeshAdj

/-- Sorted undirected edge key, as in Python `tuple(sorted([a, b]))`. -/
def edgeKey (a b : ℕ) : ℕ × ℕ := if a ≤ b then (a, b) else (b, a)

/-- The three undirected edge keys of a triangle, in source order. -/
def faceEdges (f : ℕ × ℕ × ℕ) : List (ℕ × ℕ) :=
  [edgeKey f.1 f.2.1, edgeKey f.2.1 f.2.2, edgeKey f.2.2 f.1]

/-- The occurrence list `edge_to_faces[e]`: face ids appended in
enumeration order, once per matching edge slot of each face. -/
def edgeFaces (indices : List (ℕ × ℕ × ℕ)) (e : ℕ × ℕ) : List ℕ :=
  indices.enum.flatMap fun p => ((faceEdges p.2).filter (· = e)).map fun _ => p.1

/-- Keep the first occurrence of every element, dropping later duplicates;
this is the iteration order of a Python dict keyed by insertion. -/
def firstDedup : List (ℕ × ℕ) → List (ℕ × ℕ)
  | [] => []
  | e :: rest => e :: firstDedup (rest.filter (· ≠ e))
termination_by l => l.length
decreasing_by
  simp only [List.length_cons]
  exact Nat.lt_succ_of_le (List.length_filter_le _ _)

/-- The keys of `edge_to_faces` in insertion order. -/
def edgeKeysOf (indices : List (ℕ × ℕ × ℕ)) : List (ℕ × ℕ) :=
  firstDedup (indices.flatMap faceEdges)

/-- The two `append` statements executed for one edge of the adjacency
loop: for an edge whose occurrence list is `[f1, f2]`, face `a` receives
`f2` if `a = f1` and `f1` if `a = f2`; any other occurrence count
contributes nothing. -/
def adjEntry (a : ℕ) (faces : List ℕ) : List ℕ :=
  match faces with
  | [f1, f2] => (if a = f1 then [f2] else []) ++ (if a = f2 then [f1] else [])
  | _ => []

/-- The neighbor list of face `a` built by `build_face_adjacency_graph`
(analyze_mesh.py lines 208-234) and `_build_face_adjacency_graph`
(MySupportImprover.py lines 3900-3930), which are line-identical: iterate
the edge map in insertion order and link the two faces of every edge used
exactly twice.  Faces absent from the map keep their initial empty list. -/
def adjacencyOf (indices : List (ℕ × ℕ × ℕ)) (a : ℕ) : List ℕ :=
  (edgeKeysOf indices).flatMap fun e => adjEntry a (edgeFaces indices e)

/-- Two faces are linked: some undirected edge is used by exactly those
two face slots. -/
def Linked (indices : List (ℕ × ℕ × ℕ)) (a b : ℕ) : Prop :=
  ∃ e, edgeFaces indices e = [a, b] ∨ edgeFaces indices e = [b, a]

theorem mem_adjEntry (a b : ℕ) :
    ∀ faces : List ℕ, b ∈ adjEntry a faces ↔ faces = [a, b] ∨ faces = [b, a]
  | [] => by simp [adjEntry]
  | [f] => by simp [adjEntry]
  | f1 :: f2 :: f3 :: rest => by simp [adjEntry]
  | [f1, f2] => by
    by_cases h1 : a = f1 <;> by_cases h2 : a = f2 <;>
      simp [adjEntry, h1, h2] <;> aesop

theorem mem_firstDedup : ∀ (l : List (ℕ × ℕ)) (x : ℕ × ℕ),
    x ∈ firstDedup l ↔ x ∈ l
  | [], x => by simp [firstDedup]
  | e :: rest, x => by
    rw [firstDedup]
    by_cases hx : x = e
    · subst hx; simp
    · simp only [List.mem_cons, hx, false_or]
      rw [mem_firstDedup (rest.filter (· ≠ e)) x]
      simp [hx]
termination_by l => l.length
decreasing_by
  simp only [List.length_cons]
  exact Nat.lt_succ_of_le (List.length_filter_le _ _)

theorem edgeFaces_ne_nil_mem_keys (indices : List (ℕ × ℕ × ℕ)) (e : ℕ × ℕ)
    (hne : edgeFaces indices e ≠ []) : e ∈ edgeKeysOf indices := by
  rw [edgeKeysOf, mem_firstDedup]
  rcases List.exists_mem_of_ne_nil _ hne with ⟨fid, hfid⟩
  unfold edgeFaces at hfid
  rcases List.mem_flatMap.mp hfid with ⟨p, hp, hmem⟩
  rcases List.mem_map.mp hmem with ⟨q, hq, _⟩
  have hqe : q = e := by simpa using (List.mem_filter.mp hq).2
  have hpm : p.2 ∈ indices :=
    List.getElem?_mem (List.mem_enum_iff_getElem?.mp hp)
  exact List.mem_flatMap.mpr ⟨p.2, hpm, hqe ▸ (List.mem_filter.mp hq).1⟩

theorem mem_adjacencyOf (indices : List (ℕ × ℕ × ℕ)) (a b : ℕ) :
    b ∈ adjacencyOf indices a ↔ Linked indices a b := by
  unfold adjacencyOf Linked
  rw [List.mem_flatMap]
  constructor
  · rintro ⟨e, _, hb⟩
    exact ⟨e, (mem_adjEntry a b (edgeFaces indices e)).mp hb⟩
  · rintro ⟨e, hcase⟩
    refine ⟨e, ?_, (mem_adjEntry a b (edgeFaces indices e)).mpr hcase⟩
    apply edgeFaces_ne_nil_mem_keys
    rcases hcase with h | h <;> simp [h]

/-- C6: the face adjacency graph built by `build_face_adjacency_graph`
(analyze_mesh.py) and `_build_face_adjacency_graph` (MySupportImprover.py)
is symmetric, and a neighbor link between faces A and B exists exactly when
some undirected edge is used by exactly the two face slots A and B; an edge
used by more than two faces contributes no link. -/
theorem claim_C6_adjacency_symmetric (indices : List (ℕ × ℕ × ℕ)) (a b : ℕ) :
    (b ∈ adjacencyOf indices a ↔ a ∈ adjacencyOf indices b) ∧
    (b ∈ adjacencyOf indices a ↔ Linked indices a b) := by
  have ha := mem_adjacencyOf indices a b
  have hb := mem_adjacencyOf indices b a
  refine ⟨?_, ha⟩
  rw [ha, hb]
  unfold Linked
  constructor <;> rintro ⟨e, h | h⟩ <;> exact ⟨e, by tauto⟩

end MeshAdj

namespace MergeRegions

/-- Final value of the `region_id` array for vertex `v`: the index of the
last region containing `v` (later assignments overwrite earlier ones), or
-1 when no region contains it. -/
def regionId (regions : List (Finset ℕ)) (v : ℕ) : ℤ :=
  regions.enum.foldl (fun acc p => if v ∈ p.2 then (p.1 : ℤ) else acc) (-1)

/-- The set `region_neighbors[a]` built by the double loop over the vertex
adjacency: region `b` is recorded when some vertex with region id `a` has a
neighbor vertex with region id `b ≠ a`. -/
def regionNeighbors (regions adjacency : List (Finset ℕ)) (a : ℕ) : Finset ℕ :=
  (Finset.range regions.length).filter fun b =>
    b ≠ a ∧ ∃ v ∈ Finset.range adjacency.length,
      regionId regions v = (a : ℤ) ∧
        ∃ u ∈ adjacency.getD v ∅, regionId regions u = (b : ℤ)

/-- `find_root` with path halving (`parent[i] = parent[parent[i]]`), as a
fuel-indexed recursion; the fuel only bounds the loop, the call sites pass
ample fuel and every property proved below holds for any fuel. -/
def findRootGo : ℕ → List ℕ → ℕ → ℕ × List ℕ
  | 0, parent, i => (i, parent)
  | fuel + 1, parent, i =>
    if parent.getD i i = i then (i, parent)
    else
      findRootGo fuel
        (parent.set i (parent.getD (parent.getD i i) (parent.getD i i)))
        (parent.getD (parent.getD i i) (parent.getD i i))

/-- `find_root(i)` on the current parent array. -/
def findRoot (parent : List ℕ) (i : ℕ) : ℕ × List ℕ :=
  findRootGo parent.length parent i

/-- `union(a, b)`: point the root of `b` at the root of `a`. -/
def ufUnion (parent : List ℕ) (a b : ℕ) : List ℕ :=
  let ra := findRoot parent a
  let rb := findRoot ra.2 b
  if ra.1 ≠ rb.1 then rb.2.set rb.1 ra.1 else rb.2

/-- `region_sizes`. -/
def regionSizes (regions : List (Finset ℕ)) : List ℕ := regions.map Finset.card

/-- `max(neighbors, key=lambda n: region_sizes[n])`.  Python iterates the
set in unspecified order and keeps the first maximum; we fix the
deterministic choice of the smallest index among the maxima.  No theorem
below depends on which maximal neighbor is chosen, only on membership. -/
def bestNeighbor (sizes : List ℕ) (nbrs : Finset ℕ) : ℕ :=
  let l := nbrs.sort (· ≤ ·)
  l.foldl (fun best b => if sizes.getD best 0 < sizes.getD b 0 then b else best)
    (l.headD 0)

/-- The merge loop: every small region with at least one neighboring
region is unioned into its largest neighbor. -/
def mergePass (regions adjacency : List (Finset ℕ)) (min_vertices : ℕ)
    (parent0 : List ℕ) : List ℕ :=
  (List.range regions.length).foldl
    (fun parent idx =>
      if (regions.getD idx ∅).card < min_vertices ∧
          (regionNeighbors regions adjacency idx).Nonempty then
        ufUnion parent idx
          (bestNeighbor (regionSizes regions) (regionNeighbors regions adjacency idx))
      else parent)
    parent0

/-- `merged.setdefault(root, set()).update(region)`: update the entry of
`root` if present (Python dicts key on first insertion), else append. -/
def addToGroup (assoc : List (ℕ × Finset ℕ)) (root : ℕ) (r : Finset ℕ) :
    List (ℕ × Finset ℕ) :=
  match assoc with
  | [] => [(root, r)]
  | (k, s) :: rest =>
    if k = root then (k, s ∪ r) :: rest else (k, s) :: addToGroup rest root r

/-- The grouping loop of `_mergeSmallDanglingRegions`: look up each
region's root (further compressing the parent array) and merge the region
into its root's group. -/
def collectGroups (regions : List (Finset ℕ)) (parent0 : List ℕ) :
    List (ℕ × Finset ℕ) × List ℕ :=
  (List.range regions.length).foldl
    (fun st idx =>
      let fr := findRoot st.2 idx
      (addToGroup st.1 fr.1 (regions.getD idx ∅), fr.2))
    ([], parent0)

/-- `_mergeSmallDanglingRegions` (MySupportImprover.py lines 2246-2300). -/
def mergeSmallDanglingRegions (regions adjacency : List (Finset ℕ))
    (min_vertices : ℕ) : List (Finset ℕ) :=
  if regions = [] then regions
  else
    let parent := mergePass regions adjacency min_vertices
      (List.range regions.length)
    ((collectGroups regions parent).1).map Prod.snd

/-- Union of a list of finsets. -/
def unionAll (l : List (Finset ℕ)) : Finset ℕ := l.foldr (· ∪ ·) ∅

theorem mem_unionAll (l : List (Finset ℕ)) (x : ℕ) :
    x ∈ unionAll l ↔ ∃ s ∈ l, x ∈ s := by
  induction l with
  | nil => simp [unionAll]
  | cons s rest ih =>
    simp only [unionAll, List.foldr_cons, Finset.mem_union, List.mem_cons]
    rw [show rest.foldr (· ∪ ·) ∅ = unionAll rest from rfl]
    rw [ih]
    constructor
    · rintro (hx | ⟨t, ht, hx⟩)
      · exact ⟨s, Or.inl rfl, hx⟩
      · exact ⟨t, Or.inr ht, hx⟩
    · rintro ⟨t, (rfl | ht), hx⟩
      · exact Or.inl hx
      · exact Or.inr ⟨t, ht, hx⟩

/-- Pure form of the grouping fold. -/
def groupFoldFrom (assoc : List (ℕ × Finset ℕ)) (pairs : List (ℕ × Finset ℕ)) :
    List (ℕ × Finset ℕ) :=
  pairs.foldl (fun a p => addToGroup a p.1 p.2) assoc

theorem addToGroup_nil (k : ℕ) (r : Finset ℕ) : addToGroup [] k r = [(k, r)] :=
  rfl

theorem addToGroup_cons_pos (k : ℕ) (s r : Finset ℕ)
    (rest : List (ℕ × Finset ℕ)) :
    addToGroup ((k, s) :: rest) k r = (k, s ∪ r) :: rest := by
  simp [addToGroup]

theorem addToGroup_cons_neg (k0 k : ℕ) (s r : Finset ℕ)
    (rest : List (ℕ × Finset ℕ)) (hk : k0 ≠ k) :
    addToGroup ((k0, s) :: rest) k r = (k0, s) :: addToGroup rest k r := by
  simp [addToGroup, hk]

theorem unionAll_cons (s : Finset ℕ) (l : List (Finset ℕ)) :
    unionAll (s :: l) = s ∪ unionAll l := rfl

theorem addToGroup_mem_unionAll (k : ℕ) (r : Finset ℕ) (x : ℕ) :
    ∀ assoc : List (ℕ × Finset ℕ),
      (x ∈ unionAll ((addToGroup assoc k r).map Prod.snd) ↔
        x ∈ unionAll (assoc.map Prod.snd) ∨ x ∈ r)
  | [] => by simp [addToGroup_nil, unionAll]
  | (k', s) :: rest => by
    by_cases hk : k' = k
    · subst hk
      rw [addToGroup_cons_pos, List.map_cons, List.map_cons, unionAll_cons,
        unionAll_cons]
      simp only [Finset.mem_union]
      tauto
    · rw [addToGroup_cons_neg _ _ _ _ _ hk, List.map_cons, List.map_cons,
        unionAll_cons, unionAll_cons]
      simp only [Finset.mem_union]
      rw [addToGroup_mem_unionAll k r x rest]
      tauto

theorem addToGroup_snd_mem (k : ℕ) (r : Finset ℕ) :
    ∀ (assoc : List (ℕ × Finset ℕ)) (s : Finset ℕ),
      s ∈ (addToGroup assoc k r).map Prod.snd →
      (∃ t ∈ assoc.map Prod.snd, s = t ∨ s = t ∪ r) ∨ s = r
  | [], s => by simp [addToGroup_nil]
  | (k', t) :: rest, s => by
    by_cases hk : k' = k
    · subst hk
      rw [addToGroup_cons_pos, List.map_cons, List.mem_cons]
      rintro (rfl | hs)
      · exact Or.inl ⟨t, by simp, Or.inr rfl⟩
      · exact Or.inl ⟨s, by simp [hs], Or.inl rfl⟩
    · rw [addToGroup_cons_neg _ _ _ _ _ hk, List.map_cons, List.mem_cons]
      rintro (rfl | hs)
      · exact Or.inl ⟨s, by simp, Or.inl rfl⟩
      · rcases addToGroup_snd_mem k r rest s hs with ⟨u, hu, hc⟩ | hr
        · exact Or.inl ⟨u, by simp [hu], hc⟩
        · exact Or.inr hr

theorem addToGroup_pairwise (k : ℕ) (r : Finset ℕ) :
    ∀ assoc : List (ℕ × Finset ℕ),
      List.Pairwise Disjoint (assoc.map Prod.snd) →
      (∀ t ∈ assoc.map Prod.snd, Disjoint r t) →
      List.Pairwise Disjoint ((addToGroup assoc k r).map Prod.snd)
  | [], _, _ => by simp [addToGroup_nil]
  | (k', s) :: rest, hpw, hdisj => by
    rw [List.map_cons, List.pairwise_cons] at hpw
    by_cases hk : k' = k
    · subst hk
      rw [addToGroup_cons_pos, List.map_cons, List.pairwise_cons]
      refine ⟨fun t ht => ?_, hpw.2⟩
      exact Finset.disjoint_union_left.mpr
        ⟨hpw.1 t ht, hdisj t (by simp [ht])⟩
    · rw [addToGroup_cons_neg _ _ _ _ _ hk, List.map_cons, List.pairwise_cons]
      constructor
      · intro t ht
        rcases addToGroup_snd_mem k r rest t ht with ⟨u, hu, hc | hc⟩ | hc
        · exact hc ▸ hpw.1 u hu
        · subst hc
          exact Finset.disjoint_union_right.mpr
            ⟨hpw.1 u hu, (hdisj s (by simp)).symm⟩
        · exact hc ▸ (hdisj s (by simp)).symm
      · exact addToGroup_pairwise k r rest hpw.2
          (fun t ht => hdisj t (by simp [ht]))

theorem addToGroup_preserve_entry (k k' : ℕ) (r r' : Finset ℕ)
    (hne : k' ≠ k) :
    ∀ assoc : List (ℕ × Finset ℕ), (k, r) ∈ assoc →
      (k, r) ∈ addToGroup assoc k' r'
  | [], h => absurd h (by simp)
  | (k0, s) :: rest, h => by
    by_cases hk : k0 = k'
    · subst hk
      rw [addToGroup_cons_pos]
      rcases List.mem_cons.mp h with he | hm
      · exact absurd (congrArg Prod.fst he).symm hne
      · exact List.mem_cons_of_mem _ hm
    · rw [addToGroup_cons_neg _ _ _ _ _ hk]
      rcases List.mem_cons.mp h with he | hm
      · exact he ▸ List.mem_cons_self _ _
      · exact List.mem_cons_of_mem _
          (addToGroup_preserve_entry k k' r r' hne rest hm)

theorem addToGroup_append (k : ℕ) (r : Finset ℕ) :
    ∀ assoc : List (ℕ × Finset ℕ), (∀ p ∈ assoc, p.1 ≠ k) →
      addToGroup assoc k r = assoc ++ [(k, r)]
  | [], _ => rfl
  | (k0, s) :: rest, hno => by
    have hk : k0 ≠ k := hno (k0, s) (by simp)
    rw [addToGroup_cons_neg _ _ _ _ _ hk, List.cons_append]
    rw [addToGroup_append k r rest (fun p hp => hno p (by simp [hp]))]

theorem addToGroup_no_key (k k' : ℕ) (r' : Finset ℕ) (hne : k' ≠ k) :
    ∀ assoc : List (ℕ × Finset ℕ), (∀ p ∈ assoc, p.1 ≠ k) →
      ∀ p ∈ addToGroup assoc k' r', p.1 ≠ k
  | [], _ => by
    intro p hp
    rw [addToGroup_nil] at hp
    rcases List.mem_singleton.mp hp with rfl
    exact hne
  | (k0, s) :: rest, hno => by
    by_cases hk : k0 = k'
    · subst hk
      rw [addToGroup_cons_pos]
      intro p hp
      rcases List.mem_cons.mp hp with he | hm
      · exact he ▸ hno (k0, s) (by simp)
      · exact hno p (by simp [hm])
    · rw [addToGroup_cons_neg _ _ _ _ _ hk]
      intro p hp
      rcases List.mem_cons.mp hp with he | hm
      · exact he ▸ hno (k0, s) (by simp)
      · exact addToGroup_no_key k k' r' hne rest
          (fun q hq => hno q (by simp [hq])) p hm

theorem groupFoldFrom_nil (assoc : List (ℕ × Finset ℕ)) :
    groupFoldFrom assoc [] = assoc := rfl

theorem groupFoldFrom_cons (assoc : List (ℕ × Finset ℕ))
    (p : ℕ × Finset ℕ) (rest : List (ℕ × Finset ℕ)) :
    groupFoldFrom assoc (p :: rest) =
      groupFoldFrom (addToGroup assoc p.1 p.2) rest := rfl

theorem groupFoldFrom_mem_unionAll (x : ℕ) :
    ∀ (pairs assoc : List (ℕ × Finset ℕ)),
      (x ∈ unionAll ((groupFoldFrom assoc pairs).map Prod.snd) ↔
        x ∈ unionAll (assoc.map Prod.snd) ∨ ∃ p ∈ pairs, x ∈ p.2)
  | [], assoc => by simp [groupFoldFrom_nil]
  | p :: rest, assoc => by
    rw [groupFoldFrom_cons, groupFoldFrom_mem_unionAll x rest,
      addToGroup_mem_unionAll]
    constructor
    · rintro ((hx | hx) | ⟨q, hq, hx⟩)
      · exact Or.inl hx
      · exact Or.inr ⟨p, List.mem_cons_self _ _, hx⟩
      · exact Or.inr ⟨q, List.mem_cons_of_mem _ hq, hx⟩
    · rintro (hx | ⟨q, hq, hx⟩)
      · exact Or.inl (Or.inl hx)
      · rcases List.mem_cons.mp hq with rfl | hq2
        · exact Or.inl (Or.inr hx)
        · exact Or.inr ⟨q, hq2, hx⟩

theorem groupFoldFrom_pairwise :
    ∀ (pairs assoc : List (ℕ × Finset ℕ)),
      List.Pairwise (fun p q => Disjoint p.2 q.2) pairs →
      List.Pairwise Disjoint (assoc.map Prod.snd) →
      (∀ p ∈ pairs, ∀ t ∈ assoc.map Prod.snd, Disjoint p.2 t) →
      List.Pairwise Disjoint ((groupFoldFrom assoc pairs).map Prod.snd)
  | [], _, _, hpw, _ => by simpa [groupFoldFrom_nil] using hpw
  | p :: rest, assoc, hpr, hpw, hcross => by
    rw [List.pairwise_cons] at hpr
    rw [groupFoldFrom_cons]
    refine groupFoldFrom_pairwise rest _ hpr.2 ?_ ?_
    · exact addToGroup_pairwise _ _ _ hpw
        (fun t ht => hcross p (List.mem_cons_self _ _) t ht)
    · intro q hq t ht
      rcases addToGroup_snd_mem _ _ _ t ht with ⟨u, hu, hc | hc⟩ | hc
      · exact hc ▸ hcross q (List.mem_cons_of_mem _ hq) u hu
      · subst hc
        exact Finset.disjoint_union_right.mpr
          ⟨hcross q (List.mem_cons_of_mem _ hq) u hu, (hpr.1 q hq).symm⟩
      · exact hc ▸ (hpr.1 q hq).symm

theorem groupFoldFrom_entry_seen (k : ℕ) (r : Finset ℕ) :
    ∀ (pairs assoc : List (ℕ × Finset ℕ)), (k, r) ∈ assoc →
      pairs.filter (fun p => decide (p.1 = k)) = [] →
      (k, r) ∈ groupFoldFrom assoc pairs
  | [], _, hmem, _ => hmem
  | q :: rest, assoc, hmem, hfil => by
    have hq : q.1 ≠ k := by
      intro he
      rw [List.filter_cons_of_pos (by simpa using he)] at hfil
      exact absurd hfil (by simp)
    rw [List.filter_cons_of_neg (by simpa using hq)] at hfil
    rw [groupFoldFrom_cons]
    exact groupFoldFrom_entry_seen k r rest _
      (addToGroup_preserve_entry k q.1 r q.2 hq assoc hmem) hfil

theorem groupFoldFrom_entry_unseen (k : ℕ) (r : Finset ℕ) :
    ∀ (pairs assoc : List (ℕ × Finset ℕ)), (∀ p ∈ assoc, p.1 ≠ k) →
      pairs.filter (fun p => decide (p.1 = k)) = [(k, r)] →
      (k, r) ∈ groupFoldFrom assoc pairs
  | [], _, _, hfil => by simp at hfil
  | q :: rest, assoc, hno, hfil => by
    by_cases hq : q.1 = k
    · rw [List.filter_cons_of_pos (by simpa using hq)] at hfil
      have h1 : q = (k, r) ∧
          rest.filter (fun p => decide (p.1 = k)) = [] := by
        simpa using hfil
      obtain ⟨rfl, hrest⟩ := h1
      rw [groupFoldFrom_cons, addToGroup_append _ _ _ hno]
      exact groupFoldFrom_entry_seen k r rest _ (by simp) hrest
    · rw [List.filter_cons_of_neg (by simpa using hq)] at hfil
      rw [groupFoldFrom_cons]
      exact groupFoldFrom_entry_unseen k r rest _
        (addToGroup_no_key k q.1 q.2 hq assoc hno) hfil

/-- The sequence of roots looked up while grouping, threading the
compressed parent array. -/
def rootSeq : List ℕ → List ℕ → List ℕ × List ℕ
  | parent, [] => ([], parent)
  | parent, i :: rest =>
    ((findRoot parent i).1 :: (rootSeq (findRoot parent i).2 rest).1,
      (rootSeq (findRoot parent i).2 rest).2)

theorem rootSeq_length : ∀ (l parent : List ℕ),
    (rootSeq parent l).1.length = l.length
  | [], _ => rfl
  | _ :: rest, parent => by
    rw [rootSeq]
    simp [rootSeq_length rest]

theorem collectGroups_eq_aux (regions : List (Finset ℕ)) :
    ∀ (l : List ℕ) (assoc : List (ℕ × Finset ℕ)) (parent : List ℕ),
      (l.foldl
        (fun st idx =>
          let fr := findRoot st.2 idx
          (addToGroup st.1 fr.1 (regions.getD idx ∅), fr.2))
        (assoc, parent)).1 =
      groupFoldFrom assoc
        ((rootSeq parent l).1.zip (l.map fun i => regions.getD i ∅))
  | [], assoc, parent => rfl
  | i :: rest, assoc, parent => by
    rw [List.foldl_cons, rootSeq, List.map_cons, List.zip_cons_cons,
      groupFoldFrom_cons]
    exact collectGroups_eq_aux regions rest _ _

theorem collectGroups_eq (regions : List (Finset ℕ)) (parent0 : List ℕ) :
    (collectGroups regions parent0).1 =
      groupFoldFrom []
        ((rootSeq parent0 (List.range regions.length)).1.zip
          ((List.range regions.length).map fun i => regions.getD i ∅)) :=
  collectGroups_eq_aux regions (List.range regions.length) [] parent0

/-- Vertex `idx` forms a singleton union-find tree: it is its own parent
and no other node points at it. -/
def Isolated (idx : ℕ) (parent : List ℕ) : Prop :=
  parent.getD idx idx = idx ∧ ∀ j, j ≠ idx → parent.getD j j ≠ idx

theorem getD_set_ne (l : List ℕ) (i j v d : ℕ) (h : j ≠ i) :
    (l.set i v).getD j d = l.getD j d := by
  simp [List.getD, List.getElem?_set_ne (Ne.symm h)]

theorem getD_set_same (l : List ℕ) (i v d : ℕ) :
    (l.set i v).getD i d = if i < l.length then v else d := by
  by_cases h : i < l.length
  · simp [List.getD, List.getElem?_set_self h, h]
  · rw [List.set_eq_of_length_le (Nat.le_of_not_lt h)]
    simp [List.getD, List.getElem?_eq_none (Nat.le_of_not_lt h), h]

theorem isolated_set (idx : ℕ) (parent : List ℕ) (i v : ℕ)
    (h : Isolated idx parent) (hi : i ≠ idx) (hv : v ≠ idx) :
    Isolated idx (parent.set i v) := by
  constructor
  · rw [getD_set_ne _ _ _ _ _ (Ne.symm hi)]
    exact h.1
  · intro j hj
    by_cases hji : j = i
    · subst hji
      rw [getD_set_same]
      split_ifs
      · exact hv
      · exact hj
    · rw [getD_set_ne _ _ _ _ _ hji]
      exact h.2 j hj

theorem findRootGo_isolated (idx : ℕ) :
    ∀ (fuel : ℕ) (parent : List ℕ) (i : ℕ), Isolated idx parent →
      Isolated idx (findRootGo fuel parent i).2 ∧
        ((findRootGo fuel parent i).1 = idx ↔ i = idx)
  | 0, _, _, h => ⟨h, Iff.rfl⟩
  | fuel + 1, parent, i, h => by
    rw [findRootGo]
    by_cases hp : parent.getD i i = i
    · rw [if_pos hp]
      exact ⟨h, Iff.rfl⟩
    · rw [if_neg hp]
      have hi : i ≠ idx := fun he => hp (by rw [he]; exact h.1)
      have hpi : parent.getD i i ≠ idx := h.2 i hi
      have hgp : parent.getD (parent.getD i i) (parent.getD i i) ≠ idx :=
        h.2 _ hpi
      have hiso := isolated_set idx parent i _ h hi hgp
      obtain ⟨h1, h2⟩ := findRootGo_isolated idx fuel
        (parent.set i (parent.getD (parent.getD i i) (parent.getD i i)))
        (parent.getD (parent.getD i i) (parent.getD i i)) hiso
      exact ⟨h1, by
        rw [h2]
        exact ⟨fun he => absurd he hgp, fun he => absurd he hi⟩⟩

theorem findRoot_isolated (idx : ℕ) (parent : List ℕ) (i : ℕ)
    (h : Isolated idx parent) :
    Isolated idx (findRoot parent i).2 ∧
      ((findRoot parent i).1 = idx ↔ i = idx) :=
  findRootGo_isolated idx parent.length parent i h

theorem ufUnion_isolated (idx a b : ℕ) (parent : List ℕ)
    (h : Isolated idx parent) (ha : a ≠ idx) (hb : b ≠ idx) :
    Isolated idx (ufUnion parent a b) := by
  unfold ufUnion
  obtain ⟨h1, e1⟩ := findRoot_isolated idx parent a h
  obtain ⟨h2, e2⟩ := findRoot_isolated idx (findRoot parent a).2 b h1
  have hra : (findRoot parent a).1 ≠ idx := fun he => ha (e1.mp he)
  have hrb : (findRoot (findRoot parent a).2 b).1 ≠ idx :=
    fun he => hb (e2.mp he)
  dsimp only
  split_ifs with hne
  · exact isolated_set idx _ _ _ h2 hrb hra
  · exact h2

theorem foldl_pick_mem (sizes : List ℕ) :
    ∀ (l : List ℕ) (init : ℕ),
      l.foldl (fun best b =>
        if sizes.getD best 0 < sizes.getD b 0 then b else best) init = init ∨
      l.foldl (fun best b =>
        if sizes.getD best 0 < sizes.getD b 0 then b else best) init ∈ l
  | [], _ => Or.inl rfl
  | a :: l, init => by
    rw [List.foldl_cons]
    rcases foldl_pick_mem sizes l
        (if sizes.getD init 0 < sizes.getD a 0 then a else init) with he | hm
    · rw [he]
      split_ifs
      · exact Or.inr (List.mem_cons_self _ _)
      · exact Or.inl rfl
    · exact Or.inr (List.mem_cons_of_mem _ hm)

theorem bestNeighbor_mem (sizes : List ℕ) (nbrs : Finset ℕ)
    (hne : nbrs.Nonempty) : bestNeighbor sizes nbrs ∈ nbrs := by
  unfold bestNeighbor
  dsimp only
  have hl : nbrs.sort (· ≤ ·) ≠ [] := by
    intro hnil
    rcases hne with ⟨x, hx⟩
    have := (Finset.mem_sort (α := ℕ) (· ≤ ·)).mpr hx
    rw [hnil] at this
    exact absurd this (by simp)
  have hhead : (nbrs.sort (· ≤ ·)).headD 0 ∈ nbrs.sort (· ≤ ·) := by
    cases hs : nbrs.sort (· ≤ ·) with
    | nil => exact absurd hs hl
    | cons a t => simp
  rcases foldl_pick_mem sizes (nbrs.sort (· ≤ ·))
      ((nbrs.sort (· ≤ ·)).headD 0) with he | hm
  · rw [he]
    exact (Finset.mem_sort (α := ℕ) (· ≤ ·)).mp hhead
  · exact (Finset.mem_sort (α := ℕ) (· ≤ ·)).mp hm

theorem regionId_lt (regions : List (Finset ℕ)) (v a : ℕ)
    (h : regionId regions v = (a : ℤ)) : a < regions.length := by
  have haux : ∀ (l : List (ℕ × Finset ℕ)) (acc : ℤ),
      acc < (regions.length : ℤ) → (∀ p ∈ l, (p.1 : ℤ) < regions.length) →
      l.foldl (fun acc p => if v ∈ p.2 then (p.1 : ℤ) else acc) acc <
        regions.length := by
    intro l
    induction l with
    | nil => intro acc hacc _; exact hacc
    | cons p rest ih =>
      intro acc hacc hall
      rw [List.foldl_cons]
      apply ih
      · split_ifs
        · exact hall p (List.mem_cons_self _ _)
        · exact hacc
      · exact fun q hq => hall q (List.mem_cons_of_mem _ hq)
  have hlt : regionId regions v < (regions.length : ℤ) := by
    apply haux
    · have : (0 : ℤ) ≤ regions.length := Int.ofNat_nonneg _
      omega
    · intro p hp
      have := List.mem_enum_iff_getElem?.mp hp
      have hplt : p.1 < regions.length := by
        rcases List.getElem?_eq_some.mp this with ⟨hh, _⟩
        exact hh
      exact_mod_cast hplt
  rw [h] at hlt
  exact_mod_cast hlt

theorem regionNeighbors_symm (regions adjacency : List (Finset ℕ))
    (hsym : ∀ v u, u ∈ adjacency.getD v ∅ → v ∈ adjacency.getD u ∅)
    (a b : ℕ) (hb : b ∈ regionNeighbors regions adjacency a) :
    a ∈ regionNeighbors regions adjacency b := by
  rw [regionNeighbors, Finset.mem_filter] at hb
  obtain ⟨_, hba, v, hv, hva, u, hu, hub⟩ := hb
  rw [regionNeighbors, Finset.mem_filter]
  have halt : a < regions.length := regionId_lt regions v a hva
  have hvu : v ∈ adjacency.getD u ∅ := hsym v u hu
  have hult : u < adjacency.length := by
    by_contra hc
    rw [List.getD_eq_default _ _ (Nat.le_of_not_lt hc)] at hvu
    exact absurd hvu (by simp)
  exact ⟨Finset.mem_range.mpr halt, Ne.symm hba,
    u, Finset.mem_range.mpr hult, hub, v, hvu, hva⟩

theorem mergeFold_isolated (regions adjacency : List (Finset ℕ))
    (min_vertices idx : ℕ)
    (hsym : ∀ v u, u ∈ adjacency.getD v ∅ → v ∈ adjacency.getD u ∅)
    (hno : regionNeighbors regions adjacency idx = ∅) :
    ∀ (l : List ℕ) (parent : List ℕ), Isolated idx parent →
      Isolated idx (l.foldl
        (fun parent j =>
          if (regions.getD j ∅).card < min_vertices ∧
              (regionNeighbors regions adjacency j).Nonempty then
            ufUnion parent j
              (bestNeighbor (regionSizes regions)
                (regionNeighbors regions adjacency j))
          else parent)
        parent)
  | [], _, h => h
  | j :: rest, parent, h => by
    rw [List.foldl_cons]
    apply mergeFold_isolated regions adjacency min_vertices idx hsym hno rest
    split_ifs with hc
    · have hj : j ≠ idx := by
        intro he
        rw [he, hno] at hc
        exact absurd hc.2 (by simp)
      have hbest := bestNeighbor_mem (regionSizes regions)
        (regionNeighbors regions adjacency j) hc.2
      have hbne : bestNeighbor (regionSizes regions)
          (regionNeighbors regions adjacency j) ≠ idx := by
        intro he
        rw [he] at hbest
        have hjmem := regionNeighbors_symm regions adjacency hsym j idx hbest
        rw [hno] at hjmem
        exact absurd hjmem (by simp)
      exact ufUnion_isolated idx j _ parent h hj hbne
    · exact h

theorem mergePass_isolated (regions adjacency : List (Finset ℕ))
    (min_vertices idx : ℕ)
    (hsym : ∀ v u, u ∈ adjacency.getD v ∅ → v ∈ adjacency.getD u ∅)
    (hno : regionNeighbors regions adjacency idx = ∅)
    (parent0 : List ℕ) (h0 : Isolated idx parent0) :
    Isolated idx (mergePass regions adjacency min_vertices parent0) :=
  mergeFold_isolated regions adjacency min_vertices idx hsym hno
    (List.range regions.length) parent0 h0

theorem isolated_range (idx m : ℕ) : Isolated idx (List.range m) := by
  have hval : ∀ j : ℕ, (List.range m).getD j j = j := by
    intro j
    by_cases hj : j < m
    · simp [List.getD, List.getElem?_range hj]
    · have : (List.range m).length ≤ j := by
        simpa using Nat.le_of_not_lt hj
      simp [List.getD, List.getElem?_eq_none this]
  exact ⟨hval idx, fun j hj => by rw [hval j]; exact hj⟩

theorem nodup_filter_eq_single :
    ∀ (l : List ℕ), l.Nodup → ∀ idx ∈ l,
      l.filter (fun i => decide (i = idx)) = [idx]
  | [], _, idx, h => absurd h (by simp)
  | a :: rest, hnd, idx, h => by
    rw [List.nodup_cons] at hnd
    by_cases ha : a = idx
    · subst ha
      rw [List.filter_cons_of_pos (by simp)]
      have hfil : rest.filter (fun i => decide (i = a)) = [] := by
        rw [List.filter_eq_nil_iff]
        intro b hb hba
        rw [decide_eq_true_iff] at hba
        exact hnd.1 (hba ▸ hb)
      rw [hfil]
    · rw [List.filter_cons_of_neg (by simpa using ha)]
      rcases List.mem_cons.mp h with he | hm
      · exact absurd he.symm ha
      · exact nodup_filter_eq_single rest hnd.2 idx hm

theorem rootSeq_zip_filter (regions : List (Finset ℕ)) (idx : ℕ) :
    ∀ (l parent : List ℕ), Isolated idx parent →
      ((rootSeq parent l).1.zip (l.map fun i => regions.getD i ∅)).filter
          (fun p => decide (p.1 = idx)) =
        (l.filter (fun i => decide (i = idx))).map
          (fun i => (idx, regions.getD i ∅))
  | [], _, _ => rfl
  | i :: rest, parent, h => by
    obtain ⟨h1, e1⟩ := findRoot_isolated idx parent i h
    rw [rootSeq, List.map_cons, List.zip_cons_cons]
    by_cases hi : i = idx
    · rw [List.filter_cons_of_pos (by simpa using e1.mpr hi),
        List.filter_cons_of_pos (by simpa using hi), List.map_cons,
        rootSeq_zip_filter regions idx rest _ h1]
      rw [show (findRoot parent i).1 = idx from e1.mpr hi, hi]
    · rw [List.filter_cons_of_neg
          (by simp only [decide_eq_true_iff]; exact fun he => hi (e1.mp he)),
        List.filter_cons_of_neg (by simpa using hi)]
      exact rootSeq_zip_filter regions idx rest _ h1

theorem map_getD_range (regions : List (Finset ℕ)) :
    (List.range regions.length).map (fun i => regions.getD i ∅) = regions := by
  apply List.ext_getElem
  · simp
  · intro i h1 h2
    simp only [List.getElem_map, List.getElem_range]
    exact List.getD_eq_getElem regions ∅ h2

/-- C10: for pairwise-disjoint input vertex regions and a symmetric vertex
adjacency graph, `_mergeSmallDanglingRegions` returns pairwise-disjoint
regions whose union equals the union of the inputs (no vertex is lost or
duplicated), and a region below the minimum-vertex floor that has no
adjacent region is returned unchanged rather than dropped. -/
theorem claim_C10_merge_regions (regions adjacency : List (Finset ℕ))
    (min_vertices : ℕ)
    (hdisj : List.Pairwise Disjoint regions)
    (hsym : ∀ v u, u ∈ adjacency.getD v ∅ → v ∈ adjacency.getD u ∅) :
    List.Pairwise Disjoint
      (mergeSmallDanglingRegions regions adjacency min_vertices) ∧
    unionAll (mergeSmallDanglingRegions regions adjacency min_vertices) =
      unionAll regions ∧
    ∀ idx, idx < regions.length →
      (regions.getD idx ∅).card < min_vertices →
      regionNeighbors regions adjacency idx = ∅ →
      regions.getD idx ∅ ∈
        mergeSmallDanglingRegions regions adjacency min_vertices := by
  by_cases hempty : regions = []
  · subst hempty
    refine ⟨by simp [mergeSmallDanglingRegions], rfl, ?_⟩
    intro idx hlt
    exact absurd hlt (by simp)
  · have hout : mergeSmallDanglingRegions regions adjacency min_vertices =
        (groupFoldFrom []
          ((rootSeq (mergePass regions adjacency min_vertices
              (List.range regions.length)) (List.range regions.length)).1.zip
            ((List.range regions.length).map
              fun i => regions.getD i ∅))).map Prod.snd := by
      simp only [mergeSmallDanglingRegions, if_neg hempty]
      rw [collectGroups_eq]
    have hlen : (rootSeq (mergePass regions adjacency min_vertices
        (List.range regions.length)) (List.range regions.length)).1.length =
          (List.range regions.length).length :=
      rootSeq_length _ _
    have hsnd : ((rootSeq (mergePass regions adjacency min_vertices
        (List.range regions.length)) (List.range regions.length)).1.zip
          ((List.range regions.length).map
            fun i => regions.getD i ∅)).map Prod.snd = regions := by
      rw [List.map_snd_zip _ _ (by rw [hlen]; simp), map_getD_range]
    have hpw : List.Pairwise
        (fun p q : ℕ × Finset ℕ => Disjoint p.2 q.2)
        ((rootSeq (mergePass regions adjacency min_vertices
          (List.range regions.length)) (List.range regions.length)).1.zip
            ((List.range regions.length).map
              fun i => regions.getD i ∅)) := by
      apply List.pairwise_map.mp
      rw [hsnd]
      exact hdisj
    refine ⟨?_, ?_, ?_⟩
    · rw [hout]
      exact groupFoldFrom_pairwise _ [] hpw (by simp) (by simp [unionAll])
    · rw [hout]
      apply Finset.ext
      intro x
      rw [mem_unionAll regions x, groupFoldFrom_mem_unionAll]
      constructor
      · rintro (hx | ⟨p, hp, hx⟩)
        · exact absurd hx (by simp [unionAll])
        · exact ⟨p.2, by rw [← hsnd]; exact List.mem_map_of_mem Prod.snd hp, hx⟩
      · rintro ⟨s, hs, hx⟩
        rw [← hsnd] at hs
        rcases List.mem_map.mp hs with ⟨p, hp, rfl⟩
        exact Or.inr ⟨p, hp, hx⟩
    · intro idx hlt hsmall hnone
      have hiso : Isolated idx (mergePass regions adjacency min_vertices
          (List.range regions.length)) :=
        mergePass_isolated regions adjacency min_vertices idx hsym hnone
          (List.range regions.length) (isolated_range idx regions.length)
      have hfil : ((rootSeq (mergePass regions adjacency min_vertices
          (List.range regions.length)) (List.range regions.length)).1.zip
            ((List.range regions.length).map
              fun i => regions.getD i ∅)).filter
            (fun p => decide (p.1 = idx)) =
          [(idx, regions.getD idx ∅)] := by
        rw [rootSeq_zip_filter regions idx (List.range regions.length) _ hiso,
          nodup_filter_eq_single (List.range regions.length)
            (List.nodup_range _) idx (List.mem_range.mpr hlt)]
        rfl
      have hentry := groupFoldFrom_entry_unseen idx (regions.getD idx ∅) _ []
        (by simp) hfil
      rw [hout]
      exact List.mem_map_of_mem Prod.snd hentry

theorem adjSymmExample :
    ∀ v u, u ∈ ([{1}, {0}] : List (Finset ℕ)).getD v ∅ →
      v ∈ ([{1}, {0}] : List (Finset ℕ)).getD u ∅ := by
  intro v u hu
  rcases v with _ | _ | v
  · have h1 : u = 1 := by simpa [List.getD] using hu
    subst h1; decide
  · have h0 : u = 0 := by simpa [List.getD] using hu
    subst h0; decide
  · simp [List.getD] at hu

/-- Witness for C10 at a concrete instance: two disjoint singleton regions
on a symmetric two-vertex adjacency. -/
theorem claim_C10_merge_regions_witness :
    List.Pairwise Disjoint
      (mergeSmallDanglingRegions [{0}, {1}] [{1}, {0}] 2) :=
  (claim_C10_merge_regions [{0}, {1}] [{1}, {0}] 2 (by decide)
    adjSymmExample).1

end MergeRegions

namespace Weld

/-- Vertices are rational triples; the Python code keys its vertex map on
coordinate tuples. -/
abbrev V3 := ℚ × ℚ × ℚ

/-- numpy.round rounds halfway cases to the nearest even integer. -/
def roundHalfEven (x : ℚ) : ℤ :=
  if x - ⌊x⌋ = 1 / 2 then (if Even ⌊x⌋ then ⌊x⌋ else ⌊x⌋ + 1) else round x

/-- The quantized map key `tuple(np.round(v / tolerance) * tolerance)`. -/
def quantize (tol : ℚ) (v : V3) : V3 :=
  ((roundHalfEven (v.1 / tol) : ℚ) * tol,
   (roundHalfEven (v.2.1 / tol) : ℚ) * tol,
   (roundHalfEven (v.2.2 / tol) : ℚ) * tol)

/-- Dictionary lookup on an association list (keys are unique by
construction, mirroring the Python dict). -/
def lookupKey : List (V3 × ℕ) → V3 → Option ℕ
  | [], _ => none
  | (k, i) :: rest, key => if k = key then some i else lookupKey rest key

/-- The body of the per-vertex work of `rebuild_indexed_mesh`: either
reuse the index of an existing vertex with the same quantized key, or
append a new unique vertex.  Returns the assigned index and the updated
map and unique-vertex list. -/
def addVertex (tol : ℚ) (v : V3) (vmap : List (V3 × ℕ)) (uniq : List V3) :
    ℕ × List (V3 × ℕ) × List V3 :=
  match lookupKey vmap (quantize tol v) with
  | some idx => (idx, vmap, uniq)
  | none => (uniq.length, vmap ++ [(quantize tol v, uniq.length)], uniq ++ [v])

/-- The double loop of `rebuild_indexed_mesh` (analyze_mesh.py lines
127-151, MySupportImprover.py lines 3134-3151): vertices are consumed in
blocks of three; an incomplete trailing block still feeds its vertices
through the map but contributes no triangle. -/
def weldGo (tol : ℚ) : List V3 → List (V3 × ℕ) → List V3 →
    List V3 × List (ℕ × ℕ × ℕ)
  | [], _, uniq => (uniq, [])
  | [v0], vmap, uniq => ((addVertex tol v0 vmap uniq).2.2, [])
  | [v0, v1], vmap, uniq =>
    let a0 := addVertex tol v0 vmap uniq
    let a1 := addVertex tol v1 a0.2.1 a0.2.2
    (a1.2.2, [])
  | v0 :: v1 :: v2 :: rest, vmap, uniq =>
    let a0 := addVertex tol v0 vmap uniq
    let a1 := addVertex tol v1 a0.2.1 a0.2.2
    let a2 := addVertex tol v2 a1.2.1 a1.2.2
    let r := weldGo tol rest a2.2.1 a2.2.2
    (r.1, (a0.1, a1.1, a2.1) :: r.2)

/-- `rebuild_indexed_mesh` of analyze_mesh.py (tolerance 1e-6). -/
def rebuild_indexed_mesh (vertices : List V3) :
    List V3 × List (ℕ × ℕ × ℕ) :=
  weldGo (1 / 1000000) vertices [] []

/-- `_rebuildIndexedMesh` of MySupportImprover.py (tolerance 1e-4). -/
def rebuildIndexedMesh (vertices : List V3) :
    List V3 × List (ℕ × ℕ × ℕ) :=
  weldGo (1 / 10000) vertices [] []

/-- Expand an indexed mesh back into a triangle soup that lists each
triangle's three vertex positions in order. -/
def expandTriangles (uniq : List V3) (tris : List (ℕ × ℕ × ℕ)) : List V3 :=
  tris.flatMap fun t =>
    [uniq.getD t.1 (0, 0, 0), uniq.getD t.2.1 (0, 0, 0),
     uniq.getD t.2.2 (0, 0, 0)]

/-- C8 counterexample: for the one-vertex array, the first weld keeps the
lone (triangle-less) vertex, but expanding and re-welding yields an empty
vertex list, so the second weld does not reproduce the first weld's vertex
count. -/
theorem claim_C8_counterexample :
    (rebuild_indexed_mesh [((0 : ℚ), (0 : ℚ), (0 : ℚ))]).1.length = 1 ∧
    (rebuild_indexed_mesh
      (expandTriangles (rebuild_indexed_mesh [((0 : ℚ), (0 : ℚ), (0 : ℚ))]).1
        (rebuild_indexed_mesh [((0 : ℚ), (0 : ℚ), (0 : ℚ))]).2)).1.length =
      0 := by
  constructor <;> rfl

/-- Per-vertex form of the weld loop, recording each assigned index; for a
vertex count divisible by three, the weld is this stream assignment
followed by grouping the indices into triples. -/
def assignGo (tol : ℚ) : List V3 → List (V3 × ℕ) → List V3 →
    List ℕ × List (V3 × ℕ) × List V3
  | [], vmap, uniq => ([], vmap, uniq)
  | v :: rest, vmap, uniq =>
    let a := addVertex tol v vmap uniq
    let r := assignGo tol rest a.2.1 a.2.2
    (a.1 :: r.1, r.2.1, r.2.2)

theorem assignGo_cons (tol : ℚ) (v : V3) (rest : List V3)
    (vmap : List (V3 × ℕ)) (uniq : List V3) :
    assignGo tol (v :: rest) vmap uniq =
      ((addVertex tol v vmap uniq).1 ::
        (assignGo tol rest (addVertex tol v vmap uniq).2.1
          (addVertex tol v vmap uniq).2.2).1,
       (assignGo tol rest (addVertex tol v vmap uniq).2.1
          (addVertex tol v vmap uniq).2.2).2.1,
       (assignGo tol rest (addVertex tol v vmap uniq).2.1
          (addVertex tol v vmap uniq).2.2).2.2) := rfl

/-- Group a flat id list into consecutive triples, dropping a ragged
tail. -/
def chunk3 : List ℕ → List (ℕ × ℕ × ℕ)
  | a :: b :: c :: rest => (a, b, c) :: chunk3 rest
  | _ => []

/-- Flatten a triple list back into a flat id list. -/
def flat3 (tris : List (ℕ × ℕ × ℕ)) : List ℕ :=
  tris.flatMap fun t => [t.1, t.2.1, t.2.2]

theorem weldGo_eq_assign (tol : ℚ) :
    ∀ vs : List V3, vs.length % 3 = 0 →
      ∀ (vmap : List (V3 × ℕ)) (uniq : List V3),
        weldGo tol vs vmap uniq =
          ((assignGo tol vs vmap uniq).2.2,
            chunk3 (assignGo tol vs vmap uniq).1)
  | [], _, vmap, uniq => rfl
  | [_], h, _, _ => by simp at h
  | [_, _], h, _, _ => by simp at h
  | v0 :: v1 :: v2 :: rest, h, vmap, uniq => by
    have h3 : rest.length % 3 = 0 := by
      have hlen : (v0 :: v1 :: v2 :: rest).length = rest.length + 3 := by
        simp only [List.length_cons]
      rw [hlen] at h
      omega
    rw [weldGo]
    rw [weldGo_eq_assign tol rest h3]
    rfl

/-- The association list the weld's vertex map holds when the unique list
is `uniq`, with indices starting at `n`. -/
def keyMapFrom (tol : ℚ) (n : ℕ) : List V3 → List (V3 × ℕ)
  | [] => []
  | v :: rest => (quantize tol v, n) :: keyMapFrom tol (n + 1) rest

theorem keyMapFrom_append (tol : ℚ) (v : V3) :
    ∀ (uniq : List V3) (n : ℕ),
      keyMapFrom tol n (uniq ++ [v]) =
        keyMapFrom tol n uniq ++ [(quantize tol v, n + uniq.length)]
  | [], n => by simp [keyMapFrom]
  | w :: rest, n => by
    rw [List.cons_append, keyMapFrom, keyMapFrom,
      keyMapFrom_append tol v rest (n + 1)]
    simp only [List.length_cons]
    have he : n + 1 + rest.length = n + (rest.length + 1) := by omega
    rw [he, List.cons_append]

theorem lookupKey_keyMap_none (tol : ℚ) (k : V3) :
    ∀ (uniq : List V3) (n : ℕ),
      (lookupKey (keyMapFrom tol n uniq) k = none ↔
        k ∉ uniq.map (quantize tol))
  | [], n => by simp [keyMapFrom, lookupKey]
  | v :: rest, n => by
    rw [keyMapFrom, lookupKey]
    by_cases hv : quantize tol v = k
    · simp [hv]
    · rw [if_neg hv, lookupKey_keyMap_none tol k rest (n + 1)]
      simp [Ne.symm hv]

theorem getD_mem (l : List V3) (i : ℕ) (d : V3) (h : i < l.length) :
    l.getD i d ∈ l := by
  rw [List.getD_eq_getElem l d h]
  exact List.getElem_mem h

theorem lookupKey_keyMap_some (tol : ℚ) (k : V3) :
    ∀ (uniq : List V3) (n i : ℕ),
      (uniq.map (quantize tol)).Nodup →
      i < uniq.length →
      quantize tol (uniq.getD i ((0 : ℚ), (0 : ℚ), (0 : ℚ))) = k →
      lookupKey (keyMapFrom tol n uniq) k = some (n + i)
  | [], _, i, _, hi, _ => absurd hi (by simp)
  | v :: rest, n, i, hnd, hi, hk => by
    rw [keyMapFrom, lookupKey]
    rw [List.map_cons, List.nodup_cons] at hnd
    rcases i with _ | i
    · rw [if_pos (by simpa using hk)]
      simp
    · have hik : quantize tol (rest.getD i ((0 : ℚ), (0 : ℚ), (0 : ℚ))) =
          k := by simpa using hk
      have hv : quantize tol v ≠ k := by
        intro he
        apply hnd.1
        rw [he, ← hik]
        exact List.mem_map_of_mem _
          (getD_mem rest i _ (by simpa using hi))
      rw [if_neg hv,
        lookupKey_keyMap_some tol k rest (n + 1) i hnd.2
          (by simpa using hi) hik]
      congr 1
      omega

/-- The weld-state invariant: the map is exactly the key map of the
unique list, and the keys of the unique vertices are pairwise distinct. -/
def GoodState (tol : ℚ) (vmap : List (V3 × ℕ)) (uniq : List V3) : Prop :=
  vmap = keyMapFrom tol 0 uniq ∧ (uniq.map (quantize tol)).Nodup

theorem addVertex_hit (tol : ℚ) (v : V3) (vmap : List (V3 × ℕ))
    (uniq : List V3) (hg : GoodState tol vmap uniq) (i : ℕ)
    (hi : i < uniq.length)
    (hk : quantize tol (uniq.getD i ((0 : ℚ), (0 : ℚ), (0 : ℚ))) =
      quantize tol v) :
    addVertex tol v vmap uniq = (i, vmap, uniq) := by
  unfold addVertex
  rw [hg.1, lookupKey_keyMap_some tol _ uniq 0 i hg.2 hi hk]
  simp

theorem addVertex_miss (tol : ℚ) (v : V3) (vmap : List (V3 × ℕ))
    (uniq : List V3) (hg : GoodState tol vmap uniq)
    (hk : quantize tol v ∉ uniq.map (quantize tol)) :
    addVertex tol v vmap uniq =
      (uniq.length, vmap ++ [(quantize tol v, uniq.length)], uniq ++ [v]) := by
  unfold addVertex
  rw [hg.1, (lookupKey_keyMap_none tol _ uniq 0).mpr hk, ← hg.1]

theorem addVertex_cases (tol : ℚ) (v : V3) (vmap : List (V3 × ℕ))
    (uniq : List V3) (hg : GoodState tol vmap uniq) :
    (∃ i, i < uniq.length ∧
      quantize tol (uniq.getD i ((0 : ℚ), (0 : ℚ), (0 : ℚ))) =
        quantize tol v ∧
      addVertex tol v vmap uniq = (i, vmap, uniq)) ∨
    (quantize tol v ∉ uniq.map (quantize tol) ∧
      addVertex tol v vmap uniq =
        (uniq.length, vmap ++ [(quantize tol v, uniq.length)],
          uniq ++ [v])) := by
  by_cases hmem : quantize tol v ∈ uniq.map (quantize tol)
  · left
    rcases List.mem_map.mp hmem with ⟨w, hw, hkey⟩
    rcases List.mem_iff_getElem.mp hw with ⟨i, hi, hwi⟩
    refine ⟨i, hi, ?_, ?_⟩
    · rw [List.getD_eq_getElem uniq _ hi, hwi, hkey]
    · exact addVertex_hit tol v vmap uniq hg i hi
        (by rw [List.getD_eq_getElem uniq _ hi, hwi, hkey])
  · exact Or.inr ⟨hmem, addVertex_miss tol v vmap uniq hg hmem⟩

theorem addVertex_good (tol : ℚ) (v : V3) (vmap : List (V3 × ℕ))
    (uniq : List V3) (hg : GoodState tol vmap uniq) :
    GoodState tol (addVertex tol v vmap uniq).2.1
      (addVertex tol v vmap uniq).2.2 := by
  rcases addVertex_cases tol v vmap uniq hg with ⟨i, _, _, ha⟩ | ⟨hnk, ha⟩
  · rw [ha]
    exact hg
  · rw [ha]
    constructor
    · rw [hg.1, keyMapFrom_append]
      simp
    · rw [List.map_append]
      simp only [List.map_cons, List.map_nil]
      rw [List.nodup_append]
      refine ⟨hg.2, by simp, fun k hk hmem => ?_⟩
      have hkv : k = quantize tol v := by simpa using hmem
      exact hnk (hkv ▸ hk)

theorem addVertex_uniq_mono (tol : ℚ) (v : V3) (vmap : List (V3 × ℕ))
    (uniq : List V3) :
    ∃ t, (addVertex tol v vmap uniq).2.2 = uniq ++ t := by
  unfold addVertex
  cases lookupKey vmap (quantize tol v) with
  | some i => exact ⟨[], by simp⟩
  | none => exact ⟨[v], rfl⟩

theorem assignGo_uniq_mono (tol : ℚ) :
    ∀ (vs : List V3) (vmap : List (V3 × ℕ)) (uniq : List V3),
      ∃ t, (assignGo tol vs vmap uniq).2.2 = uniq ++ t
  | [], _, _ => ⟨[], by simp [assignGo]⟩
  | v :: rest, vmap, uniq => by
    rw [assignGo_cons]
    obtain ⟨t1, h1⟩ := addVertex_uniq_mono tol v vmap uniq
    obtain ⟨t2, h2⟩ := assignGo_uniq_mono tol rest
      (addVertex tol v vmap uniq).2.1 (addVertex tol v vmap uniq).2.2
    exact ⟨t1 ++ t2, by rw [h2, h1, List.append_assoc]⟩

theorem assignGo_length (tol : ℚ) :
    ∀ (vs : List V3) (vmap : List (V3 × ℕ)) (uniq : List V3),
      (assignGo tol vs vmap uniq).1.length = vs.length
  | [], _, _ => rfl
  | v :: rest, vmap, uniq => by
    rw [assignGo_cons]
    simp [assignGo_length tol rest]

theorem getD_append_left (l t : List V3) (i : ℕ) (d : V3)
    (h : i < l.length) : (l ++ t).getD i d = l.getD i d := by
  rw [List.getD_eq_getElem l d h,
    List.getD_eq_getElem (l ++ t) d (by simp; omega),
    List.getElem_append_left h]

theorem getD_append_length (l : List V3) (v : V3) (t : List V3) (d : V3) :
    (l ++ v :: t).getD l.length d = v := by
  rw [List.getD_eq_getElem (l ++ v :: t) d (by simp)]
  rw [List.getElem_append_right (Nat.le_refl l.length)]
  simp

theorem assign_lockstep (tol : ℚ) :
    ∀ (vs : List V3) (vmap : List (V3 × ℕ)) (uniq : List V3),
      GoodState tol vmap uniq →
      assignGo tol
        ((assignGo tol vs vmap uniq).1.map
          (fun i => (assignGo tol vs vmap uniq).2.2.getD i
            ((0 : ℚ), (0 : ℚ), (0 : ℚ))))
        vmap uniq = assignGo tol vs vmap uniq
  | [], _, _, _ => rfl
  | v :: rest, vmap, uniq, hg => by
    obtain ⟨t, ht⟩ := assignGo_uniq_mono tol rest
      (addVertex tol v vmap uniq).2.1 (addVertex tol v vmap uniq).2.2
    have hhead : addVertex tol
        ((assignGo tol rest (addVertex tol v vmap uniq).2.1
          (addVertex tol v vmap uniq).2.2).2.2.getD
            (addVertex tol v vmap uniq).1 ((0 : ℚ), (0 : ℚ), (0 : ℚ)))
        vmap uniq = addVertex tol v vmap uniq := by
      rcases addVertex_cases tol v vmap uniq hg with
        ⟨i, hi, _, ha⟩ | ⟨_, ha⟩
      · rw [ha] at ht ⊢
        dsimp only at ht ⊢
        rw [ht, getD_append_left _ _ _ _ hi]
        rw [addVertex_hit tol _ vmap uniq hg i hi rfl, ← ha]
      · rw [ha] at ht ⊢
        dsimp only at ht ⊢
        rw [ht, List.append_assoc, List.singleton_append,
          getD_append_length]
        exact ha
    rw [assignGo_cons tol v rest vmap uniq]
    dsimp only
    rw [List.map_cons]
    rw [assignGo_cons tol _ _ vmap uniq]
    rw [hhead]
    rw [assign_lockstep tol rest (addVertex tol v vmap uniq).2.1
      (addVertex tol v vmap uniq).2.2 (addVertex_good tol v vmap uniq hg)]

theorem flat3_cons (t : ℕ × ℕ × ℕ) (ts : List (ℕ × ℕ × ℕ)) :
    flat3 (t :: ts) = t.1 :: t.2.1 :: t.2.2 :: flat3 ts := by
  simp [flat3]

theorem flat3_chunk3 : ∀ s : List ℕ, s.length % 3 = 0 → flat3 (chunk3 s) = s
  | [], _ => rfl
  | [_], h => by simp at h
  | [_, _], h => by simp at h
  | a :: b :: c :: rest, h => by
    have h3 : rest.length % 3 = 0 := by
      simp only [List.length_cons] at h
      omega
    rw [show chunk3 (a :: b :: c :: rest) = (a, b, c) :: chunk3 rest from rfl,
      flat3_cons, flat3_chunk3 rest h3]

theorem expandTriangles_cons (uniq : List V3) (t : ℕ × ℕ × ℕ)
    (ts : List (ℕ × ℕ × ℕ)) :
    expandTriangles uniq (t :: ts) =
      uniq.getD t.1 ((0 : ℚ), (0 : ℚ), (0 : ℚ)) ::
        uniq.getD t.2.1 ((0 : ℚ), (0 : ℚ), (0 : ℚ)) ::
        uniq.getD t.2.2 ((0 : ℚ), (0 : ℚ), (0 : ℚ)) ::
        expandTriangles uniq ts := by
  simp [expandTriangles]

theorem expandTriangles_eq_map (uniq : List V3) :
    ∀ tris : List (ℕ × ℕ × ℕ),
      expandTriangles uniq tris =
        (flat3 tris).map fun i => uniq.getD i ((0 : ℚ), (0 : ℚ), (0 : ℚ))
  | [] => rfl
  | t :: ts => by
    rw [expandTriangles_cons, flat3_cons, List.map_cons, List.map_cons,
      List.map_cons, expandTriangles_eq_map uniq ts]

theorem weld_idempotent (tol : ℚ) (vs : List V3)
    (h3 : vs.length % 3 = 0) :
    weldGo tol
        (expandTriangles (weldGo tol vs [] []).1 (weldGo tol vs [] []).2)
        [] [] =
      weldGo tol vs [] [] := by
  have hg0 : GoodState tol [] [] := ⟨rfl, by simp⟩
  have hw := weldGo_eq_assign tol vs h3 [] []
  rw [hw]
  have hlen : (assignGo tol vs [] []).1.length = vs.length :=
    assignGo_length tol vs [] []
  have hs3 : (assignGo tol vs [] []).1.length % 3 = 0 := by
    rw [hlen]; exact h3
  rw [expandTriangles_eq_map, flat3_chunk3 _ hs3]
  have hm3 : ((assignGo tol vs [] []).1.map
      (fun i => (assignGo tol vs [] []).2.2.getD i
        ((0 : ℚ), (0 : ℚ), (0 : ℚ)))).length % 3 = 0 := by
    rw [List.length_map]; exact hs3
  rw [weldGo_eq_assign tol _ hm3 [] []]
  rw [assign_lockstep tol vs [] [] hg0]

/-- C8 amended: for every vertex array whose length is a multiple of
three, re-welding the triangle soup expanded from the weld's output
reproduces the weld's unique-vertex list and index triples exactly (in
particular the same vertex count and topology).  Covers
`rebuild_indexed_mesh` (analyze_mesh.py, tolerance 1e-6) and
`_rebuildIndexedMesh` (MySupportImprover.py, tolerance 1e-4).  The
multiple-of-three restriction is forced by `claim_C8_counterexample`:
a ragged tail adds unique vertices that no triangle references. -/
theorem claim_C8_weld_idempotent (vertices : List V3)
    (h3 : vertices.length % 3 = 0) :
    rebuild_indexed_mesh
        (expandTriangles (rebuild_indexed_mesh vertices).1
          (rebuild_indexed_mesh vertices).2) =
      rebuild_indexed_mesh vertices ∧
    rebuildIndexedMesh
        (expandTriangles (rebuildIndexedMesh vertices).1
          (rebuildIndexedMesh vertices).2) =
      rebuildIndexedMesh vertices :=
  ⟨weld_idempotent (1 / 1000000) vertices h3,
   weld_idempotent (1 / 10000) vertices h3⟩

/-- Witness for the amended C8 at a concrete three-vertex triangle. -/
theorem claim_C8_weld_idempotent_witness :
    rebuild_indexed_mesh
        (expandTriangles
          (rebuild_indexed_mesh
            [((0 : ℚ), (0 : ℚ), (0 : ℚ)), ((1 : ℚ), (0 : ℚ), (0 : ℚ)),
              ((0 : ℚ), (1 : ℚ), (0 : ℚ))]).1
          (rebuild_indexed_mesh
            [((0 : ℚ), (0 : ℚ), (0 : ℚ)), ((1 : ℚ), (0 : ℚ), (0 : ℚ)),
              ((0 : ℚ), (1 : ℚ), (0 : ℚ))]).2) =
      rebuild_indexed_mesh
        [((0 : ℚ), (0 : ℚ), (0 : ℚ)), ((1 : ℚ), (0 : ℚ), (0 : ℚ)),
          ((0 : ℚ), (1 : ℚ), (0 : ℚ))] :=
  (claim_C8_weld_idempotent
    [((0 : ℚ), (0 : ℚ), (0 : ℚ)), ((1 : ℚ), (0 : ℚ), (0 : ℚ)),
      ((0 : ℚ), (1 : ℚ), (0 : ℚ))] (by rfl)).1

end Weld

namespace Overhang

noncomputable section

open scoped Classical

/-- 3D real vectors indexed by coordinate. -/
abbrev Vec3 := Fin 3 → ℝ

/-- Dot product. -/
def dot3 (u v : Vec3) : ℝ := u 0 * v 0 + u 1 * v 1 + u 2 * v 2

/-- numpy.cross of two 3D vectors. -/
def cross3 (u v : Vec3) : Vec3 :=
  ![u 1 * v 2 - u 2 * v 1, u 2 * v 0 - u 0 * v 2, u 0 * v 1 - u 1 * v 0]

/-- numpy.linalg.norm. -/
def norm3 (v : Vec3) : ℝ := Real.sqrt (dot3 v v)

/-- Componentwise difference. -/
def sub3 (u v : Vec3) : Vec3 := fun i => u i - v i

/-- `np.clip(x, -1.0, 1.0)`. -/
def clip1 (x : ℝ) : ℝ := min (max x (-1)) 1

/-- `np.degrees`. -/
def degrees (x : ℝ) : ℝ := x * (180 / Real.pi)

/-- `np.deg2rad`. -/
def deg2rad (x : ℝ) : ℝ := x * (Real.pi / 180)

/-- The geometric (unnormalized) face normal: the cross product of the
two edge vectors from the face's first vertex, shared by
`compute_face_normals`, `_compute_face_normals` and `_isFaceOverhang`. -/
def rawNormal (vertices : List Vec3) (face : ℕ × ℕ × ℕ) : Vec3 :=
  cross3
    (sub3 (vertices.getD face.2.1 (fun _ => 0))
      (vertices.getD face.1 (fun _ => 0)))
    (sub3 (vertices.getD face.2.2 (fun _ => 0))
      (vertices.getD face.1 (fun _ => 0)))

/-- One row of `compute_face_normals` (analyze_mesh.py lines 163-181) and
`_compute_face_normals` (MySupportImprover.py lines 3874-3898): the face
normal divided by `max(length, 1e-10)`. -/
def faceNormal (vertices : List Vec3) (face : ℕ × ℕ × ℕ) : Vec3 :=
  fun i => rawNormal vertices face i /
    max (norm3 (rawNormal vertices face)) (1 / 10 ^ 10)

/-- The per-face angle computed by `detect_overhangs` (analyze_mesh.py
lines 184-205): degrees between the build direction `(0, 0, -1)`
(downward in Z) and the face normal. -/
def detectAngleAM (vertices : List Vec3) (indices : List (ℕ × ℕ × ℕ))
    (fid : ℕ) : ℝ :=
  degrees (Real.arccos (clip1 (dot3 ![0, 0, -1]
    (faceNormal vertices (indices.getD fid (0, 0, 0))))))

/-- The overhang mask of `detect_overhangs`: `angles > threshold_angle`. -/
def OverhangAM (vertices : List Vec3) (indices : List (ℕ × ℕ × ℕ))
    (threshold_angle : ℝ) (fid : ℕ) : Prop :=
  detectAngleAM vertices indices fid > threshold_angle

/-- The per-normal angle of `_detectOverhangFacesFromNormals`
(MySupportImprover.py lines 2030-2039): degrees between the given
world-space normal and the downward build direction `(0, -1, 0)` of the
Y-up space. -/
def detectAngleMSI (n : Vec3) : ℝ :=
  degrees (Real.arccos (clip1 (dot3 n ![0, -1, 0])))

/-- The mask `angles < (90.0 - threshold_angle)` of
`_detectOverhangFacesFromNormals`. -/
def OverhangMSI (n : Vec3) (threshold_angle : ℝ) : Prop :=
  detectAngleMSI n < 90 - threshold_angle

/-- The id array `np.where(overhang_mask)[0]` returned by
`_detectOverhangFacesFromNormals`. -/
def detectOverhangFacesFromNormals (face_normals : List Vec3)
    (threshold_angle : ℝ) : List ℕ :=
  (face_normals.enum.filter fun p =>
    decide (OverhangMSI p.2 threshold_angle)).map Prod.fst

/-- `_isFaceOverhang` (MySupportImprover.py lines 3248-3286) with
`transform = None`: False for a near-degenerate face (normal length below
1e-10); otherwise the angle between the normalized face normal and the up
vector `(0, 1, 0)` strictly exceeds `deg2rad(90 + threshold_angle)`. -/
def isFaceOverhang (vertices : List Vec3) (indices : List (ℕ × ℕ × ℕ))
    (face_id : ℕ) (threshold_angle : ℝ) : Prop :=
  norm3 (rawNormal vertices (indices.getD face_id (0, 0, 0))) ≥
      1 / 10 ^ 10 ∧
    Real.arccos (clip1 (dot3
        (fun i => rawNormal vertices (indices.getD face_id (0, 0, 0)) i /
          norm3 (rawNormal vertices (indices.getD face_id (0, 0, 0))))
        ![0, 1, 0])) >
      deg2rad (90 + threshold_angle)

theorem clip1_neg (x : ℝ) : clip1 (-x) = -(clip1 x) := by
  unfold clip1
  rw [min_def, max_def, min_def, max_def]
  split_ifs <;> linarith

theorem angle_up_down (n : Vec3) (t : ℝ) :
    (Real.arccos (clip1 (dot3 n ![0, 1, 0])) > deg2rad (90 + t)) ↔
      degrees (Real.arccos (clip1 (dot3 n ![0, -1, 0]))) < 90 - t := by
  have hdown : dot3 n ![0, -1, 0] = -(dot3 n ![0, 1, 0]) := by
    simp [dot3]
  rw [hdown, clip1_neg, Real.arccos_neg]
  unfold degrees deg2rad
  have hpi : (0 : ℝ) < Real.pi := Real.pi_pos
  set A := Real.arccos (clip1 (dot3 n ![0, 1, 0])) with hA
  have e1 : (90 + t) * (Real.pi / 180) < A ↔ (90 + t) * Real.pi < A * 180 := by
    rw [← mul_div_assoc]
    exact div_lt_iff₀ (by norm_num)
  have e2 : (Real.pi - A) * (180 / Real.pi) < 90 - t ↔
      (Real.pi - A) * 180 < (90 - t) * Real.pi := by
    rw [← mul_div_assoc]
    exact div_lt_iff₀ hpi
  rw [gt_iff_lt, e1, e2]
  constructor <;> intro h <;> nlinarith

theorem mem_detectOverhang (ns : List Vec3) (t : ℝ) (fid : ℕ) :
    fid ∈ detectOverhangFacesFromNormals ns t ↔
      fid < ns.length ∧ OverhangMSI (ns.getD fid (fun _ => 0)) t := by
  unfold detectOverhangFacesFromNormals
  rw [List.mem_map]
  constructor
  · rintro ⟨p, hp, rfl⟩
    rw [List.mem_filter] at hp
    have hm := List.mem_enum_iff_getElem?.mp hp.1
    rcases List.getElem?_eq_some.mp hm with ⟨hlt, he⟩
    refine ⟨hlt, ?_⟩
    have hgd : ns.getD p.1 (fun _ => 0) = p.2 := by
      rw [List.getD_eq_getElem _ _ hlt, he]
    rw [hgd]
    exact of_decide_eq_true hp.2
  · rintro ⟨hlt, hov⟩
    refine ⟨(fid, ns.getD fid (fun _ => 0)), ?_, rfl⟩
    rw [List.mem_filter]
    refine ⟨?_, decide_eq_true hov⟩
    apply List.mem_enum_iff_getElem?.mpr
    rw [List.getD_eq_getElem _ _ hlt]
    exact List.getElem?_eq_getElem hlt

/-- C2: for every face whose geometric normal has length at least 1e-10
and every threshold, the angle-to-up test of `_isFaceOverhang` and the
angle-to-down mask of `_detectOverhangFacesFromNormals` (fed the
normalized normals of `_compute_face_normals`) give the same verdict. -/
theorem claim_C2_formulas_equivalent (vertices : List Vec3)
    (indices : List (ℕ × ℕ × ℕ)) (fid : ℕ) (t : ℝ)
    (hfid : fid < indices.length)
    (hnd : 1 / 10 ^ 10 ≤
      norm3 (rawNormal vertices (indices.getD fid (0, 0, 0)))) :
    (isFaceOverhang vertices indices fid t ↔
      fid ∈ detectOverhangFacesFromNormals
        (indices.map (faceNormal vertices)) t) := by
  rw [mem_detectOverhang]
  have hmaplen : fid < (indices.map (faceNormal vertices)).length := by
    simpa using hfid
  have hgetD : (indices.map (faceNormal vertices)).getD fid (fun _ => 0) =
      faceNormal vertices (indices.getD fid (0, 0, 0)) := by
    rw [List.getD_eq_getElem _ _ hmaplen, List.getElem_map,
      List.getD_eq_getElem _ _ hfid]
  rw [hgetD]
  unfold isFaceOverhang OverhangMSI detectAngleMSI
  have hmax : max
      (norm3 (rawNormal vertices (indices.getD fid (0, 0, 0))))
      (1 / 10 ^ 10) =
        norm3 (rawNormal vertices (indices.getD fid (0, 0, 0))) :=
    max_eq_left hnd
  have hfn : faceNormal vertices (indices.getD fid (0, 0, 0)) =
      fun i => rawNormal vertices (indices.getD fid (0, 0, 0)) i /
        norm3 (rawNormal vertices (indices.getD fid (0, 0, 0))) := by
    funext i
    rw [faceNormal, hmax]
  rw [hfn]
  constructor
  · rintro ⟨_, hang⟩
    exact ⟨hmaplen, (angle_up_down _ t).mp hang⟩
  · rintro ⟨_, hang⟩
    exact ⟨hnd, (angle_up_down _ t).mpr hang⟩

theorem downNormalExample :
    rawNormal [![0, 0, 0], ![1, 0, 0], ![0, 0, 1]]
      (([((0 : ℕ), (1 : ℕ), (2 : ℕ))].getD 0 (0, 0, 0))) = ![0, -1, 0] := by
  funext i
  fin_cases i <;>
    simp [rawNormal, cross3, sub3, List.getD]

theorem downNormalExampleNorm :
    (1 : ℝ) / 10 ^ 10 ≤
      norm3 (rawNormal [![0, 0, 0], ![1, 0, 0], ![0, 0, 1]]
        (([((0 : ℕ), (1 : ℕ), (2 : ℕ))].getD 0 (0, 0, 0)))) := by
  rw [downNormalExample]
  have h1 : dot3 ![0, -1, 0] ![0, -1, 0] = 1 := by
    simp [dot3]
  rw [norm3, h1, Real.sqrt_one]
  norm_num

/-- Witness for C2 at a concrete non-degenerate face with normal
(0, -1, 0). -/
theorem claim_C2_formulas_equivalent_witness :
    (isFaceOverhang [![0, 0, 0], ![1, 0, 0], ![0, 0, 1]]
        [((0 : ℕ), (1 : ℕ), (2 : ℕ))] 0 45 ↔
      0 ∈ detectOverhangFacesFromNormals
        ([((0 : ℕ), (1 : ℕ), (2 : ℕ))].map
          (faceNormal [![0, 0, 0], ![1, 0, 0], ![0, 0, 1]])) 45) :=
  claim_C2_formulas_equivalent
    [![0, 0, 0], ![1, 0, 0], ![0, 0, 1]]
    [((0 : ℕ), (1 : ℕ), (2 : ℕ))] 0 45 (by norm_num) downNormalExampleNorm

theorem clip1_one : clip1 1 = 1 := by
  unfold clip1
  norm_num

theorem clip1_negOne : clip1 (-1) = -1 := by
  unfold clip1
  norm_num

theorem degrees_zero : degrees 0 = 0 := by
  unfold degrees
  ring

theorem degrees_pi : degrees Real.pi = 180 := by
  unfold degrees
  field_simp

/-- C1 evidence: analyze_mesh.py classifies with `angles > threshold`
against the down direction, so with `supportAngleDeg = 45` the triangle
whose unit normal points straight down (angle 0 to the down axis) is NOT
marked as an overhang, while the straight-up triangle (angle 180) IS; the
Cura-module classifier `_detectOverhangFacesFromNormals`
(`angles < 90 - threshold`) marks exactly the straight-down one, matching
the specified scenario.  The mesh is two triangles over the unit square's
corner vertices, wound to face straight down and straight up. -/
theorem claim_C1_down_triangle :
    ¬ OverhangAM [![0, 0, 0], ![1, 0, 0], ![0, 1, 0]]
        [((0 : ℕ), (2 : ℕ), (1 : ℕ)), ((0 : ℕ), (1 : ℕ), (2 : ℕ))] 45 0 ∧
    OverhangAM [![0, 0, 0], ![1, 0, 0], ![0, 1, 0]]
        [((0 : ℕ), (2 : ℕ), (1 : ℕ)), ((0 : ℕ), (1 : ℕ), (2 : ℕ))] 45 1 ∧
    detectOverhangFacesFromNormals [![0, -1, 0], ![0, 1, 0]] 45 = [0] := by
  have hraw0 : rawNormal [![0, 0, 0], ![1, 0, 0], ![0, 1, 0]]
      ((0 : ℕ), (2 : ℕ), (1 : ℕ)) = ![0, 0, -1] := by
    funext i
    fin_cases i <;> simp [rawNormal, cross3, sub3, List.getD]
  have hraw1 : rawNormal [![0, 0, 0], ![1, 0, 0], ![0, 1, 0]]
      ((0 : ℕ), (1 : ℕ), (2 : ℕ)) = ![0, 0, 1] := by
    funext i
    fin_cases i <;> simp [rawNormal, cross3, sub3, List.getD]
  have hnorm : ∀ z : ℝ, dot3 ![0, 0, z] ![0, 0, z] = z * z := by
    intro z
    simp [dot3]
  have hn0 : norm3 ![(0 : ℝ), 0, -1] = 1 := by
    rw [norm3, hnorm]
    norm_num
  have hn1 : norm3 ![(0 : ℝ), 0, 1] = 1 := by
    rw [norm3, hnorm]
    norm_num
  have hfn0 : faceNormal [![0, 0, 0], ![1, 0, 0], ![0, 1, 0]]
      ((0 : ℕ), (2 : ℕ), (1 : ℕ)) = ![0, 0, -1] := by
    funext i
    rw [faceNormal, hraw0, hn0, max_eq_left (by norm_num)]
    simp
  have hfn1 : faceNormal [![0, 0, 0], ![1, 0, 0], ![0, 1, 0]]
      ((0 : ℕ), (1 : ℕ), (2 : ℕ)) = ![0, 0, 1] := by
    funext i
    rw [faceNormal, hraw1, hn1, max_eq_left (by norm_num)]
    simp
  refine ⟨?_, ?_, ?_⟩
  · intro hov
    unfold OverhangAM detectAngleAM at hov
    rw [show ([((0 : ℕ), (2 : ℕ), (1 : ℕ)),
        ((0 : ℕ), (1 : ℕ), (2 : ℕ))].getD 0 (0, 0, 0)) =
      ((0 : ℕ), (2 : ℕ), (1 : ℕ)) from rfl, hfn0] at hov
    have hd : dot3 ![(0 : ℝ), 0, -1] ![0, 0, -1] = 1 := by
      simp [dot3]
    rw [hd, clip1_one, Real.arccos_one, degrees_zero] at hov
    norm_num at hov
  · unfold OverhangAM detectAngleAM
    rw [show ([((0 : ℕ), (2 : ℕ), (1 : ℕ)),
        ((0 : ℕ), (1 : ℕ), (2 : ℕ))].getD 1 (0, 0, 0)) =
      ((0 : ℕ), (1 : ℕ), (2 : ℕ)) from rfl, hfn1]
    have hd : dot3 ![(0 : ℝ), 0, -1] ![0, 0, 1] = -1 := by
      simp [dot3]
    rw [hd, clip1_negOne, Real.arccos_neg_one, degrees_pi]
    norm_num
  · have hdown : OverhangMSI ![(0 : ℝ), -1, 0] 45 := by
      unfold OverhangMSI detectAngleMSI
      have hd : dot3 ![(0 : ℝ), -1, 0] ![0, -1, 0] = 1 := by
        simp [dot3]
      rw [hd, clip1_one, Real.arccos_one, degrees_zero]
      norm_num
    have hup : ¬ OverhangMSI ![(0 : ℝ), 1, 0] 45 := by
      unfold OverhangMSI detectAngleMSI
      have hd : dot3 ![(0 : ℝ), 1, 0] ![0, -1, 0] = -1 := by
        simp [dot3]
      rw [hd, clip1_negOne, Real.arccos_neg_one, degrees_pi]
      norm_num
    unfold detectOverhangFacesFromNormals
    rw [show ([![(0 : ℝ), -1, 0], ![0, 1, 0]].enum) =
      [((0 : ℕ), ![(0 : ℝ), -1, 0]), ((1 : ℕ), ![(0 : ℝ), 1, 0])] from rfl]
    have h1 : decide (OverhangMSI ![(0 : ℝ), -1, 0] 45) = true :=
      decide_eq_true hdown
    have h2 : decide (OverhangMSI ![(0 : ℝ), 1, 0] 45) = false := by
      simpa using hup
    simp [List.filter_cons, h1, h2]

end

end Overhang

namespace GeomR

noncomputable section

open scoped Classical

/-- Dot product of coordinate vectors (`numpy.dot`). -/
def dotR (u v : Fin 3 → ℝ) : ℝ := ∑ i, u i * v i

/-- `numpy.mean(vertices, axis=0)`: the column means of an N x 3 point
matrix whose rows are the points. -/
def meanRow (k : ℕ) (m : Matrix (Fin k) (Fin 3) ℝ) : Fin 3 → ℝ :=
  fun j => (∑ i, m i j) / k

/-- The normalization divisor of `numpy.cov(..., rowvar=False)` with its
default `ddof = 1`: the number of observations minus one. -/
def covFact (k : ℕ) : ℝ := (k : ℝ) - 1

/-- `numpy.cov` divides by `covFact` only when it is positive; otherwise
it emits a "Degrees of freedom <= 0" warning and the covariance entries
come out as 0/0 = NaN, `eigh` then fails or returns NaNs, and
`calculate_obb_pca` yields no real OBB. The total real-valued model of
the covariance below is therefore faithful exactly on this domain. -/
def CovDefined (k : ℕ) : Prop := 0 < covFact k

/-- `numpy.cov(m, rowvar=False)`: subtract the column means and form the
normalized Gram matrix, dividing by `covFact` (N - 1). Note that Lean's
x/0 = 0 convention makes this total; on inputs violating `CovDefined`
the program itself produces NaNs instead. -/
def npCov (k : ℕ) (m : Matrix (Fin k) (Fin 3) ℝ) :
    Matrix (Fin 3) (Fin 3) ℝ :=
  Matrix.of fun a b =>
    (∑ i, (m i a - meanRow k m a) * (m i b - meanRow k m b)) / covFact k

theorem covDefined_iff (k : ℕ) : CovDefined k ↔ 2 ≤ k := by
  unfold CovDefined covFact
  rw [sub_pos]
  constructor
  · intro h
    have h1 : 1 < k := by exact_mod_cast h
    omega
  · intro h
    have h1 : 1 < k := by omega
    exact_mod_cast h1

theorem npCov_isHermitian (k : ℕ) (m : Matrix (Fin k) (Fin 3) ℝ) :
    (npCov k m).IsHermitian := by
  apply Matrix.IsHermitian.ext
  intro a b
  simp only [npCov, Matrix.of_apply, RCLike.star_def, conj_trivial]
  congr 1
  exact Finset.sum_congr rfl fun i _ => mul_comm _ _

/-- The eigenvector matrix returned by `numpy.linalg.eigh` on the
covariance matrix, modelled as a matrix whose columns are an orthonormal
eigenbasis of the (Hermitian) covariance, which is the documented
contract of `eigh`. -/
def covRotation (k : ℕ) (m : Matrix (Fin k) (Fin 3) ℝ) :
    Matrix (Fin 3) (Fin 3) ℝ :=
  Matrix.of fun i j => (npCov_isHermitian k m).eigenvectorBasis j i

/-- `projected_vertices = centered_vertices @ rotation_matrix`. -/
def projected (k : ℕ) (m : Matrix (Fin k) (Fin 3) ℝ) (i : Fin k)
    (j : Fin 3) : ℝ :=
  ∑ a, (m i a - meanRow k m a) * covRotation k m a j

/-- An oriented bounding box: center, half-extents and a rotation matrix
whose columns are the box axes. -/
structure OBB where
  center : Fin 3 → ℝ
  extents : Fin 3 → ℝ
  rotation : Matrix (Fin 3) (Fin 3) ℝ

/-- Column `i` of the rotation: one principal axis. -/
def obbAxis (o : OBB) (i : Fin 3) : Fin 3 → ℝ := fun r => o.rotation r i

/-- `calculate_obb_pca` (geometry_utils.py lines 3-39): PCA axes from the
eigen-decomposition of the covariance matrix, extents from per-axis
min/max of the projected points, center mapped back to world space. -/
def calculate_obb_pca (k : ℕ) (m : Matrix (Fin k) (Fin 3) ℝ) : OBB :=
  if hk : k = 0 then ⟨fun _ => 0, fun _ => 0, 1⟩
  else
    haveI : Nonempty (Fin k) := ⟨⟨0, Nat.pos_of_ne_zero hk⟩⟩
    { center := fun a => meanRow k m a +
        ∑ j, ((Finset.univ.inf' Finset.univ_nonempty
            (fun i => projected k m i j) +
          Finset.univ.sup' Finset.univ_nonempty
            (fun i => projected k m i j)) / 2) * covRotation k m a j
      extents := fun j =>
        (Finset.univ.sup' Finset.univ_nonempty (fun i => projected k m i j) -
          Finset.univ.inf' Finset.univ_nonempty
            (fun i => projected k m i j)) / 2
      rotation := covRotation k m }

theorem covRotation_orthonormal (k : ℕ) (m : Matrix (Fin k) (Fin 3) ℝ)
    (i j : Fin 3) :
    (∑ a, covRotation k m a i * covRotation k m a j) =
      if i = j then 1 else 0 := by
  have horth := (npCov_isHermitian k m).eigenvectorBasis.orthonormal
  have := orthonormal_iff_ite.mp horth i j
  rw [← this]
  rw [PiLp.inner_apply]
  simp only [RCLike.inner_apply, conj_trivial]
  apply Finset.sum_congr rfl
  intro a _
  simp [covRotation, mul_comm]

theorem center_dot_axis (k : ℕ) (m : Matrix (Fin k) (Fin 3) ℝ)
    (mid : Fin 3 → ℝ) (ax : Fin 3) :
    (∑ r, (meanRow k m r + ∑ j, mid j * covRotation k m r j) *
      covRotation k m r ax) =
      (∑ r, meanRow k m r * covRotation k m r ax) + mid ax := by
  rw [Finset.sum_congr rfl (fun r _ => add_mul (meanRow k m r)
    (∑ j, mid j * covRotation k m r j) (covRotation k m r ax)),
    Finset.sum_add_distrib]
  congr 1
  have h1 : ∀ r, (∑ j, mid j * covRotation k m r j) * covRotation k m r ax =
      ∑ j, mid j * (covRotation k m r j * covRotation k m r ax) := by
    intro r
    rw [Finset.sum_mul]
    exact Finset.sum_congr rfl fun j _ => by ring
  rw [Finset.sum_congr rfl (fun r _ => h1 r), Finset.sum_comm]
  have h2 : ∀ j, (∑ r, mid j * (covRotation k m r j * covRotation k m r ax)) =
      mid j * ∑ r, covRotation k m r j * covRotation k m r ax :=
    fun j => (Finset.mul_sum _ _ _).symm
  rw [Finset.sum_congr rfl (fun j _ => h2 j)]
  have h3 : ∀ j, mid j * (∑ r, covRotation k m r j * covRotation k m r ax) =
      if j = ax then mid j else 0 := by
    intro j
    rw [covRotation_orthonormal k m j ax]
    split_ifs <;> simp
  rw [Finset.sum_congr rfl (fun j _ => h3 j)]
  simp

theorem row_dot_sub (k : ℕ) (m : Matrix (Fin k) (Fin 3) ℝ) (i : Fin k)
    (ax : Fin 3) :
    (∑ r, m i r * covRotation k m r ax) -
      (∑ r, meanRow k m r * covRotation k m r ax) = projected k m i ax := by
  rw [projected, ← Finset.sum_sub_distrib]
  exact Finset.sum_congr rfl fun r _ => by ring

/-- C5 counterexample: a single point is a non-empty input inside the
original claim's domain, but there the covariance divisor `covFact` is
zero, so `numpy.cov` computes its (identically zero) numerators as 0/0 =
NaN and `eigh` cannot return an eigenbasis: `calculate_obb_pca` produces
no invariant-satisfying OBB for a one-point set. The third conjunct
exhibits the modelling artifact that masked this: under Lean's x/0 = 0
the covariance of the all-ones single-point matrix collapses to the zero
matrix instead of being undefined. -/
theorem claim_C5_counterexample :
    ¬ CovDefined 1 ∧ covFact 1 = 0 ∧
    npCov 1 (Matrix.of fun _ _ => (1 : ℝ)) =
      Matrix.of fun _ _ => (0 : ℝ) := by
  refine ⟨?_, ?_, ?_⟩
  · rw [covDefined_iff]
    omega
  · unfold covFact
    norm_num
  · ext a b
    simp [npCov, meanRow]

/-- C5 (amended): for every point set with at least two points — exactly
the inputs where the covariance divisor N - 1 is positive, so the
program's covariance is defined (`covDefined_iff`) — the PCA OBB has
non-negative extents, a rotation with orthonormal columns, and contains
every input point: each point's projection onto every principal axis
lies within the center projection plus or minus the extent. -/
theorem claim_C5_obb_invariants (k : ℕ) (m : Matrix (Fin k) (Fin 3) ℝ)
    (hk : 2 ≤ k) :
    (∀ j, 0 ≤ (calculate_obb_pca k m).extents j) ∧
    (∀ i j, dotR (obbAxis (calculate_obb_pca k m) i)
        (obbAxis (calculate_obb_pca k m) j) = if i = j then 1 else 0) ∧
    (∀ (i : Fin k) (ax : Fin 3),
      |dotR (fun a => m i a) (obbAxis (calculate_obb_pca k m) ax) -
        dotR (calculate_obb_pca k m).center
          (obbAxis (calculate_obb_pca k m) ax)| ≤
        (calculate_obb_pca k m).extents ax) := by
  have hk0 : k ≠ 0 := by omega
  haveI hne : Nonempty (Fin k) := ⟨⟨0, Nat.pos_of_ne_zero hk0⟩⟩
  have hrot : (calculate_obb_pca k m).rotation = covRotation k m := by
    rw [calculate_obb_pca, dif_neg hk0]
  have hex : (calculate_obb_pca k m).extents = fun j =>
      (Finset.univ.sup' Finset.univ_nonempty (fun i => projected k m i j) -
        Finset.univ.inf' Finset.univ_nonempty
          (fun i => projected k m i j)) / 2 := by
    rw [calculate_obb_pca, dif_neg hk0]
  have hcen : (calculate_obb_pca k m).center = fun a => meanRow k m a +
      ∑ j, ((Finset.univ.inf' Finset.univ_nonempty
          (fun i => projected k m i j) +
        Finset.univ.sup' Finset.univ_nonempty
          (fun i => projected k m i j)) / 2) * covRotation k m a j := by
    rw [calculate_obb_pca, dif_neg hk0]
  have haxis : ∀ ax, obbAxis (calculate_obb_pca k m) ax =
      fun r => covRotation k m r ax := by
    intro ax
    funext r
    rw [obbAxis, hrot]
  refine ⟨?_, ?_, ?_⟩
  · intro j
    rw [hex]
    have h1 := Finset.inf'_le (fun i => projected k m i j)
      (Finset.mem_univ (Classical.arbitrary (Fin k)))
    have h2 := Finset.le_sup' (fun i => projected k m i j)
      (Finset.mem_univ (Classical.arbitrary (Fin k)))
    simp only
    linarith
  · intro i j
    rw [haxis i, haxis j, dotR]
    exact covRotation_orthonormal k m i j
  · intro i ax
    rw [haxis ax, hcen, hex, dotR, dotR]
    simp only
    rw [center_dot_axis k m _ ax]
    have hkey : (∑ r, m i r * covRotation k m r ax) -
        ((∑ r, meanRow k m r * covRotation k m r ax) +
          ((Finset.univ.inf' Finset.univ_nonempty
              (fun i2 => projected k m i2 ax) +
            Finset.univ.sup' Finset.univ_nonempty
              (fun i2 => projected k m i2 ax)) / 2)) =
        projected k m i ax -
          ((Finset.univ.inf' Finset.univ_nonempty
              (fun i2 => projected k m i2 ax) +
            Finset.univ.sup' Finset.univ_nonempty
              (fun i2 => projected k m i2 ax)) / 2) := by
      rw [← row_dot_sub k m i ax]
      ring
    rw [hkey]
    have hlo := Finset.inf'_le (fun i2 => projected k m i2 ax)
      (Finset.mem_univ i)
    have hhi := Finset.le_sup' (fun i2 => projected k m i2 ax)
      (Finset.mem_univ i)
    rw [abs_le]
    constructor <;> simp only at hlo hhi ⊢ <;> linarith

/-- Witness for the amended C5 at a two-point set at the origin. -/
theorem claim_C5_obb_invariants_witness :
    0 ≤ (calculate_obb_pca 2 (Matrix.of fun _ _ => 0)).extents 0 :=
  (claim_C5_obb_invariants 2 (Matrix.of fun _ _ => 0) (by decide)).1 0

/-- `numpy.cross` of 3D vectors. -/
def crossR (u v : Fin 3 → ℝ) : Fin 3 → ℝ :=
  ![u 1 * v 2 - u 2 * v 1, u 2 * v 0 - u 0 * v 2, u 0 * v 1 - u 1 * v 0]

/-- `numpy.linalg.norm`. -/
def normR (v : Fin 3 → ℝ) : ℝ := Real.sqrt (dotR v v)

/-- Componentwise vector difference. -/
def subR (u v : Fin 3 → ℝ) : Fin 3 → ℝ := fun i => u i - v i

/-- Scalar division of a vector. -/
def sdiv (v : Fin 3 → ℝ) (c : ℝ) : Fin 3 → ℝ := fun i => v i / c

/-- `tri_edges` of `sat_check_obb_triangle`. -/
def triEdges (t0 t1 t2 : Fin 3 → ℝ) : List (Fin 3 → ℝ) :=
  [subR t1 t0, subR t2 t1, subR t0 t2]

/-- The candidate separating axes of `sat_check_obb_triangle`
(geometry_utils.py lines 58-71): the three box axes, then the normalized
triangle normal when its length exceeds 1e-6, then the normalized cross
products of each box axis with each triangle edge, skipping those of
length at most 1e-6. -/
def axesToTest (o : OBB) (t0 t1 t2 : Fin 3 → ℝ) : List (Fin 3 → ℝ) :=
  ([obbAxis o 0, obbAxis o 1, obbAxis o 2] ++
    (if normR (crossR (subR t1 t0) (subR t2 t1)) > 1 / 10 ^ 6 then
      [sdiv (crossR (subR t1 t0) (subR t2 t1))
        (normR (crossR (subR t1 t0) (subR t2 t1)))]
     else [])) ++
  (List.finRange 3).flatMap fun i =>
    (triEdges t0 t1 t2).flatMap fun e =>
      if normR (crossR (obbAxis o i) e) > 1 / 10 ^ 6 then
        [sdiv (crossR (obbAxis o i) e) (normR (crossR (obbAxis o i) e))]
      else []

/-- The per-axis interval-overlap test of `sat_check_obb_triangle`
(geometry_utils.py lines 73-84): the box projects to an interval of radius
`r = dot(extents, |axis . box axes|)` about its center projection, the
triangle to the span of its three vertex projections; the test fails
(separation) when one interval lies strictly beyond the other. -/
def AxisOverlap (o : OBB) (t0 t1 t2 : Fin 3 → ℝ) (axis : Fin 3 → ℝ) :
    Prop :=
  ¬ (dotR o.center axis + (∑ i, o.extents i * |dotR axis (obbAxis o i)|) <
      min (dotR t0 axis) (min (dotR t1 axis) (dotR t2 axis)) ∨
     max (dotR t0 axis) (max (dotR t1 axis) (dotR t2 axis)) <
      dotR o.center axis - (∑ i, o.extents i * |dotR axis (obbAxis o i)|))

/-- `sat_check_obb_triangle` reports an intersection exactly when every
tested axis shows overlapping projection intervals (the Python loop
returns False on the first separating axis, else True). -/
def sat_check_obb_triangle (o : OBB) (t0 t1 t2 : Fin 3 → ℝ) : Prop :=
  ∀ axis ∈ axesToTest o t0 t1 t2, AxisOverlap o t0 t1 t2 axis

/-- `check_obb_mesh_collision` (geometry_utils.py lines 88-110): True
when some face outside `excluded_faces` passes the SAT test. -/
def check_obb_mesh_collision (o : OBB) (vertices : List (Fin 3 → ℝ))
    (indices : List (ℕ × ℕ × ℕ)) (excluded : Finset ℕ) : Prop :=
  ∃ p ∈ indices.enum, p.1 ∉ excluded ∧
    sat_check_obb_triangle o (vertices.getD p.2.1 (fun _ => 0))
      (vertices.getD p.2.2.1 (fun _ => 0))
      (vertices.getD p.2.2.2 (fun _ => 0))

/-- The solid oriented box described by an OBB value: center plus a
coefficient combination of the box axes bounded by the extents. -/
def obbPoints (o : OBB) : Set (Fin 3 → ℝ) :=
  {p | ∃ c : Fin 3 → ℝ, (∀ i, |c i| ≤ o.extents i) ∧
    p = fun r => o.center r + ∑ i, c i * o.rotation r i}

/-- The (filled) triangle spanned by three vertices. -/
def triPoints (t0 t1 t2 : Fin 3 → ℝ) : Set (Fin 3 → ℝ) :=
  {q | ∃ α β γ : ℝ, 0 ≤ α ∧ 0 ≤ β ∧ 0 ≤ γ ∧ α + β + γ = 1 ∧
    q = fun r => α * t0 r + β * t1 r + γ * t2 r}

theorem dotR_comm (u v : Fin 3 → ℝ) : dotR u v = dotR v u := by
  unfold dotR
  exact Finset.sum_congr rfl fun i _ => mul_comm _ _

theorem obbPoint_proj (o : OBB) (axis p : Fin 3 → ℝ)
    (hp : p ∈ obbPoints o) :
    |dotR p axis - dotR o.center axis| ≤
      ∑ i, o.extents i * |dotR axis (obbAxis o i)| := by
  obtain ⟨c, hc, rfl⟩ := hp
  have hsplit : dotR (fun r => o.center r + ∑ i, c i * o.rotation r i) axis =
      dotR o.center axis + ∑ i, c i * dotR (obbAxis o i) axis := by
    unfold dotR obbAxis
    rw [Finset.sum_congr rfl (fun r _ => add_mul (o.center r)
      (∑ i, c i * o.rotation r i) (axis r)), Finset.sum_add_distrib]
    congr 1
    have h1 : ∀ r : Fin 3, (∑ i, c i * o.rotation r i) * axis r =
        ∑ i, c i * (o.rotation r i * axis r) := by
      intro r
      rw [Finset.sum_mul]
      exact Finset.sum_congr rfl fun i _ => by ring
    rw [Finset.sum_congr rfl (fun r _ => h1 r), Finset.sum_comm]
    exact Finset.sum_congr rfl fun i _ => (Finset.mul_sum _ _ _).symm
  rw [hsplit, add_sub_cancel_left]
  calc |∑ i, c i * dotR (obbAxis o i) axis|
      ≤ ∑ i, |c i * dotR (obbAxis o i) axis| :=
        Finset.abs_sum_le_sum_abs _ _
    _ ≤ ∑ i, o.extents i * |dotR axis (obbAxis o i)| := by
        apply Finset.sum_le_sum
        intro i _
        rw [abs_mul, dotR_comm axis (obbAxis o i)]
        exact mul_le_mul_of_nonneg_right (hc i) (abs_nonneg _)

theorem triPoint_proj (t0 t1 t2 axis q : Fin 3 → ℝ)
    (hq : q ∈ triPoints t0 t1 t2) :
    min (dotR t0 axis) (min (dotR t1 axis) (dotR t2 axis)) ≤ dotR q axis ∧
      dotR q axis ≤
        max (dotR t0 axis) (max (dotR t1 axis) (dotR t2 axis)) := by
  obtain ⟨a, b, g, ha, hb, hg, hsum, rfl⟩ := hq
  have hdq : dotR (fun r => a * t0 r + b * t1 r + g * t2 r) axis =
      a * dotR t0 axis + b * dotR t1 axis + g * dotR t2 axis := by
    unfold dotR
    have hr : ∀ r : Fin 3, (a * t0 r + b * t1 r + g * t2 r) * axis r =
        a * (t0 r * axis r) + b * (t1 r * axis r) + g * (t2 r * axis r) :=
      fun r => by ring
    rw [Finset.sum_congr rfl (fun r _ => hr r), Finset.sum_add_distrib,
      Finset.sum_add_distrib, ← Finset.mul_sum, ← Finset.mul_sum,
      ← Finset.mul_sum]
  rw [hdq]
  have hm1 : min (dotR t0 axis) (min (dotR t1 axis) (dotR t2 axis)) ≤
      dotR t0 axis := min_le_left _ _
  have hm2 : min (dotR t0 axis) (min (dotR t1 axis) (dotR t2 axis)) ≤
      dotR t1 axis := le_trans (min_le_right _ _) (min_le_left _ _)
  have hm3 : min (dotR t0 axis) (min (dotR t1 axis) (dotR t2 axis)) ≤
      dotR t2 axis := le_trans (min_le_right _ _) (min_le_right _ _)
  have hx1 : dotR t0 axis ≤
      max (dotR t0 axis) (max (dotR t1 axis) (dotR t2 axis)) :=
    le_max_left _ _
  have hx2 : dotR t1 axis ≤
      max (dotR t0 axis) (max (dotR t1 axis) (dotR t2 axis)) :=
    le_trans (le_max_left _ _) (le_max_right _ _)
  have hx3 : dotR t2 axis ≤
      max (dotR t0 axis) (max (dotR t1 axis) (dotR t2 axis)) :=
    le_trans (le_max_right _ _) (le_max_right _ _)
  refine ⟨?_, ?_⟩
  · have p1 := mul_le_mul_of_nonneg_left hm1 ha
    have p2 := mul_le_mul_of_nonneg_left hm2 hb
    have p3 := mul_le_mul_of_nonneg_left hm3 hg
    have hsm : a * (min (dotR t0 axis) (min (dotR t1 axis) (dotR t2 axis))) +
        b * (min (dotR t0 axis) (min (dotR t1 axis) (dotR t2 axis))) +
        g * (min (dotR t0 axis) (min (dotR t1 axis) (dotR t2 axis))) =
        min (dotR t0 axis) (min (dotR t1 axis) (dotR t2 axis)) := by
      rw [← add_mul, ← add_mul, hsum, one_mul]
    linarith
  · have p1 := mul_le_mul_of_nonneg_left hx1 ha
    have p2 := mul_le_mul_of_nonneg_left hx2 hb
    have p3 := mul_le_mul_of_nonneg_left hx3 hg
    have hsm : a * (max (dotR t0 axis) (max (dotR t1 axis) (dotR t2 axis))) +
        b * (max (dotR t0 axis) (max (dotR t1 axis) (dotR t2 axis))) +
        g * (max (dotR t0 axis) (max (dotR t1 axis) (dotR t2 axis))) =
        max (dotR t0 axis) (max (dotR t1 axis) (dotR t2 axis)) := by
      rw [← add_mul, ← add_mul, hsum, one_mul]
    linarith

theorem axis_separates (o : OBB) (t0 t1 t2 axis : Fin 3 → ℝ)
    (hsep : ¬ AxisOverlap o t0 t1 t2 axis) :
    ∀ p ∈ obbPoints o, p ∉ triPoints t0 t1 t2 := by
  intro p hp hq
  have hb := obbPoint_proj o axis p hp
  obtain ⟨hqlo, hqhi⟩ := triPoint_proj t0 t1 t2 axis p hq
  unfold AxisOverlap at hsep
  rw [not_not] at hsep
  have habs := abs_le.mp hb
  rcases hsep with h | h
  · linarith [habs.2]
  · linarith [habs.1]

theorem collision_sound (o : OBB) (vertices : List (Fin 3 → ℝ))
    (indices : List (ℕ × ℕ × ℕ)) (excluded : Finset ℕ)
    (h : ¬ check_obb_mesh_collision o vertices indices excluded) :
    ∀ p ∈ indices.enum, p.1 ∉ excluded →
      ∀ x ∈ obbPoints o,
        x ∉ triPoints (vertices.getD p.2.1 (fun _ => 0))
          (vertices.getD p.2.2.1 (fun _ => 0))
          (vertices.getD p.2.2.2 (fun _ => 0)) := by
  intro p hp hexc x hx
  unfold check_obb_mesh_collision at h
  push_neg at h
  have hsat := h p hp hexc
  unfold sat_check_obb_triangle at hsat
  push_neg at hsat
  obtain ⟨axis, _, hsep⟩ := hsat
  exact axis_separates o _ _ _ axis hsep x hx

end

end GeomR

/-!
## The dangling-region placement solver (C3)

Embedding of the footprint shrink loop and the post-loop guards of
`_autoDetectOverhangs` (MySupportImprover.py lines 2947-3104, the
`dangling_vertex_regions_active` branch): each iteration intersects the
horizontal footprint with the world-space face bounding boxes, splits the
non-region faces inside the footprint into blocking (|normal_y| >= 0.95)
and side faces, derives the vertical span limits, and either settles,
shrinks the footprint by 0.85 (floored at the region size), or stops when
stuck; after at most 10 shrink attempts the post-loop guards either reject
the region (`continue`, no volume created) or build the region's PCA OBB,
which is created only when `check_obb_mesh_collision` reports no collision.
-/

namespace Shrink

noncomputable section

open scoped Classical

open GeomR

/-- World-space per-face data used by the loop: the face's axis-aligned
bounds (`face_min_world`/`face_max_world`), the y component of its unit
normal (`face_normals_world[:, 1]`), and whether it belongs to the
dangling region (`region_face_mask`). -/
structure FaceInfo where
  minX : ℝ
  maxX : ℝ
  minY : ℝ
  maxY : ℝ
  minZ : ℝ
  maxZ : ℝ
  nY : ℝ
  inRegion : Bool

/-- Scalar inputs fixed before the loop: footprint center
(`position_world_x/z`), world-space region footprint size
(`region_size_world_x/z`), the region's lowest y (`min_dangling_y`), and
the mesh's highest y (`mesh_max_y`). -/
structure DanglingParams where
  positionX : ℝ
  positionZ : ℝ
  regionSizeX : ℝ
  regionSizeZ : ℝ
  minDanglingY : ℝ
  meshMaxY : ℝ

/-- `base_bottom_y = max(build_plate_y, min_dangling_y - bottom_clearance)`
with `build_plate_y = 0.0` and `bottom_clearance = 0.01`. -/
def baseBottomY (p : DanglingParams) : ℝ := max 0 (p.minDanglingY - 1 / 100)

/-- Initial `padded_size_x = max(1.0, region_size_world_x * 1.15)` (the
dangling branch uses `padding_factor = 1.15`). -/
def startSizeX (p : DanglingParams) : ℝ := max 1 (p.regionSizeX * (23 / 20))

/-- Initial `padded_size_z`, as for x. -/
def startSizeZ (p : DanglingParams) : ℝ := max 1 (p.regionSizeZ * (23 / 20))

/-- `inside_face_mask & ~region_face_mask`: the non-region faces whose xz
bounding box meets the current footprint. -/
def otherFaces (faces : List FaceInfo) (minx maxx minz maxz : ℝ) :
    List FaceInfo :=
  faces.filter fun f => decide (f.minX ≤ maxx ∧ minx ≤ f.maxX ∧
    f.minZ ≤ maxz ∧ minz ≤ f.maxZ ∧ f.inRegion = false)

/-- Results of one loop body: the vertical span (`bottom_y`, `top_y`), the
counts `other_above_count`, `other_below_count`, `side_intrusion`, and the
side faces' minimum-y values (needed by the stuck-break rescue). -/
structure SpanOut where
  bottomY : ℝ
  topY : ℝ
  aboveCount : ℕ
  belowCount : ℕ
  sideCount : ℕ
  sideMinYs : List ℝ

/-- One iteration of the while body up to the break decision
(lines 2976-2994): footprint from the current sizes, blocking faces are
those with `|normal_y| >= 0.95`; `upper_limit` starts at
`mesh_max_y + 0.01` and is cut below the lowest blocking face strictly
above `min_dangling_y + 0.005`; `lower_limit` starts at the build plate 0
and is raised above the highest blocking face strictly below
`min_dangling_y - 0.005`; `bottom_y = max(base_bottom_y, lower_limit)`,
`top_y = upper_limit`; `side_intrusion` counts side faces crossing the
open span `(bottom_y + 0.01, top_y - 0.01)`. -/
def spanIter (faces : List FaceInfo) (p : DanglingParams) (sx sz : ℝ) :
    SpanOut :=
  let others := otherFaces faces (p.positionX - sx / 2) (p.positionX + sx / 2)
    (p.positionZ - sz / 2) (p.positionZ + sz / 2)
  let blocking := others.filter fun f => decide ((19 : ℝ) / 20 ≤ |f.nY|)
  let side := others.filter fun f => decide (|f.nY| < (19 : ℝ) / 20)
  let above := (blocking.map FaceInfo.minY).filter fun y =>
    decide (p.minDanglingY + 1 / 200 < y)
  let below := (blocking.map FaceInfo.maxY).filter fun y =>
    decide (y < p.minDanglingY - 1 / 200)
  let upper :=
    match above with
    | [] => p.meshMaxY + 1 / 100
    | y :: ys => min (p.meshMaxY + 1 / 100) (ys.foldl min y - 1 / 100)
  let lower :=
    match below with
    | [] => (0 : ℝ)
    | y :: ys => max 0 (ys.foldl max y + 1 / 100)
  let b := max (baseBottomY p) lower
  ⟨b, upper, above.length, below.length,
    (side.filter fun f =>
      decide (b + 1 / 100 < f.maxY ∧ f.minY < upper - 1 / 100)).length,
    side.map FaceInfo.minY⟩

/-- The break condition of lines 2994-2998: no intruding faces and the
span overlaps the dangling bottom within the slack
(`top_y >= min_dangling_y + 0.005 - 0.02` and
`bottom_y <= min_dangling_y - 0.005 + 0.02`). -/
def SpanSuccess (p : DanglingParams) (s : SpanOut) : Prop :=
  s.sideCount = 0 ∧ s.aboveCount = 0 ∧ s.belowCount = 0 ∧
    p.minDanglingY + 1 / 200 - 1 / 50 ≤ s.topY ∧
    s.bottomY ≤ p.minDanglingY - 1 / 200 + 1 / 50

/-- The stuck-break rescue (lines 3018-3022): when the footprint cannot
shrink further and side faces intrude, `top_y` is capped below the lowest
side face starting strictly above `bottom_y + 0.01`. -/
def rescueTop (s : SpanOut) : ℝ :=
  if 0 < s.sideCount then
    match s.sideMinYs.filter fun y => decide (s.bottomY + 1 / 100 < y) with
    | [] => s.topY
    | y :: ys => min s.topY (ys.foldl min y - 1 / 100)
  else s.topY

/-- Loop state after exit: `shrink_attempts`, the final footprint sizes,
and the `bottom_y`/`top_y` of the last executed iteration. -/
structure ShrinkOut where
  attempts : ℕ
  sizeX : ℝ
  sizeZ : ℝ
  bottomY : ℝ
  topY : ℝ

/-- The `while shrink_attempts < 10` loop, fuel = `10 - shrink_attempts`:
break on success; otherwise shrink both sizes by 0.85 floored at the
region size; if both sizes are unchanged apply the rescue and break; else
increment `shrink_attempts` and continue. When the fuel runs out the span
of the last iteration persists (Python keeps `bottom_y`/`top_y` in scope). -/
def shrinkGo (faces : List FaceInfo) (p : DanglingParams) :
    ℕ → ℕ → ℝ → ℝ → ℝ → ℝ → ShrinkOut
  | 0, attempts, sx, sz, b, t => ⟨attempts, sx, sz, b, t⟩
  | fuel + 1, attempts, sx, sz, _, _ =>
    if SpanSuccess p (spanIter faces p sx sz) then
      ⟨attempts, sx, sz, (spanIter faces p sx sz).bottomY,
        (spanIter faces p sx sz).topY⟩
    else if max p.regionSizeX (sx * (17 / 20)) = sx ∧
        max p.regionSizeZ (sz * (17 / 20)) = sz then
      ⟨attempts, sx, sz, (spanIter faces p sx sz).bottomY,
        rescueTop (spanIter faces p sx sz)⟩
    else
      shrinkGo faces p fuel (attempts + 1)
        (max p.regionSizeX (sx * (17 / 20)))
        (max p.regionSizeZ (sz * (17 / 20)))
        (spanIter faces p sx sz).bottomY (spanIter faces p sx sz).topY

/-- The loop as run: `shrink_attempts = 0` and the initial padded sizes. -/
def shrinkLoop (faces : List FaceInfo) (p : DanglingParams) : ShrinkOut :=
  shrinkGo faces p 10 0 (startSizeX p) (startSizeZ p) 0 0

/-- The post-loop decision (lines 3041-3104): the three `continue` guards
(top below the dangling bottom margin, bottom above it, and no vertical
clearance without the slack rescue), then the region's PCA OBB is built
and the volume is created only if `check_obb_mesh_collision` is False;
`none` models `continue` (no modifier volume), `some o` models creating a
volume box `o`. -/
def danglingDecision (faces : List FaceInfo) (p : DanglingParams) (k : ℕ)
    (regionPts : Matrix (Fin k) (Fin 3) ℝ) (vertices : List (Fin 3 → ℝ))
    (indices : List (ℕ × ℕ × ℕ)) (excluded : Finset ℕ) : Option OBB :=
  if (shrinkLoop faces p).topY < p.minDanglingY + 1 / 200 - 1 / 50 then none
  else if p.minDanglingY - 1 / 200 + 1 / 50 < (shrinkLoop faces p).bottomY then
    none
  else if (shrinkLoop faces p).topY ≤ (shrinkLoop faces p).bottomY + 1 / 200 ∧
      ¬ ((shrinkLoop faces p).bottomY - 1 / 50 ≤ (shrinkLoop faces p).topY ∧
        (shrinkLoop faces p).bottomY + 1 / 200 - 1 / 50 ≤
          (shrinkLoop faces p).topY) then none
  else if check_obb_mesh_collision (calculate_obb_pca k regionPts) vertices
      indices excluded then none
  else some (calculate_obb_pca k regionPts)

theorem shrinkGo_attempts_le (faces : List FaceInfo) (p : DanglingParams) :
    ∀ fuel attempts : ℕ, ∀ sx sz b t : ℝ,
      (shrinkGo faces p fuel attempts sx sz b t).attempts ≤ attempts + fuel := by
  intro fuel
  induction fuel with
  | zero => intro attempts sx sz b t; simp [shrinkGo]
  | succ n ih =>
    intro attempts sx sz b t
    rw [shrinkGo]
    split_ifs
    · simp
    · simp
    · exact le_trans (ih (attempts + 1) _ _ _ _) (by omega)

/-- **C3**: the dangling-footprint shrink loop performs at most 10 shrink
attempts; each post-loop guard (top below the dangling bottom margin,
bottom above it, or OBB-mesh collision) rejects the region with no volume
created (`none`); and whenever a volume IS produced it is the region's
PCA OBB, the SAT collision check against the non-excluded mesh faces is
negative, and — since a separating tested axis really separates — that box
is geometrically disjoint from every non-excluded mesh triangle: no
silently intersecting placement. -/
theorem claim_C3_shrink_bounded_no_silent_collision
    (faces : List FaceInfo) (p : DanglingParams) (k : ℕ)
    (regionPts : Matrix (Fin k) (Fin 3) ℝ) (vertices : List (Fin 3 → ℝ))
    (indices : List (ℕ × ℕ × ℕ)) (excluded : Finset ℕ) :
    (shrinkLoop faces p).attempts ≤ 10 ∧
    ((shrinkLoop faces p).topY < p.minDanglingY + 1 / 200 - 1 / 50 →
      danglingDecision faces p k regionPts vertices indices excluded = none) ∧
    (p.minDanglingY - 1 / 200 + 1 / 50 < (shrinkLoop faces p).bottomY →
      danglingDecision faces p k regionPts vertices indices excluded = none) ∧
    (check_obb_mesh_collision (calculate_obb_pca k regionPts) vertices indices
        excluded →
      danglingDecision faces p k regionPts vertices indices excluded = none) ∧
    ∀ o, danglingDecision faces p k regionPts vertices indices excluded =
        some o →
      o = calculate_obb_pca k regionPts ∧
      ¬ check_obb_mesh_collision o vertices indices excluded ∧
      ∀ q ∈ indices.enum, q.1 ∉ excluded →
        ∀ x ∈ obbPoints o,
          x ∉ triPoints (vertices.getD q.2.1 (fun _ => 0))
            (vertices.getD q.2.2.1 (fun _ => 0))
            (vertices.getD q.2.2.2 (fun _ => 0)) := by
  refine ⟨?_, ?_, ?_, ?_, ?_⟩
  · unfold shrinkLoop
    simpa using shrinkGo_attempts_le faces p 10 0 (startSizeX p)
      (startSizeZ p) 0 0
  · intro h
    unfold danglingDecision
    rw [if_pos h]
  · intro h
    unfold danglingDecision
    by_cases h1 : (shrinkLoop faces p).topY <
        p.minDanglingY + 1 / 200 - 1 / 50
    · rw [if_pos h1]
    · rw [if_neg h1, if_pos h]
  · intro hcol
    unfold danglingDecision
    split_ifs <;> rfl
  · intro o ho
    unfold danglingDecision at ho
    split_ifs at ho with h1 h2 h3 h4
    obtain rfl : calculate_obb_pca k regionPts = o := Option.some.inj ho
    refine ⟨rfl, h4, ?_⟩
    intro q hq hqe x hx
    exact collision_sound _ _ _ _ h4 q hq hqe x hx

end

end Shrink

/-!
## Region growing by BFS (C7)

Embeddings of the two breadth-first region-growing routines, with faces as
`Fin n` (indices into the mesh's face arrays):

* `find_connected_overhang_regions` (analyze_mesh.py lines 237-272): seeds
  iterate over the candidate ids; the BFS checks `visited` and the overhang
  mask when a face is popped, marks it visited, collects it, and enqueues
  its not-yet-visited neighbors; empty regions are dropped.
* `_findConnectedRegions` (MySupportImprover.py lines 3534-3594): the BFS
  marks faces visited when they are enqueued, starting from the seed, and
  the finished list of regions is sorted by size, largest first. Its
  adjacency dict (built from edges shared by exactly two overhang faces,
  lines 3536-3564) enters as a function assumed symmetric and confined to
  candidate faces, which is how it is constructed.
-/

namespace Regions

open Relation

theorem rtg_symm {α : Type} {R : α → α → Prop} (h : ∀ a b, R a b → R b a)
    {a b : α} (hab : ReflTransGen R a b) : ReflTransGen R b a := by
  induction hab with
  | refl => exact ReflTransGen.refl
  | tail _ hs ih => exact ReflTransGen.head (h _ _ hs) ih

theorem rtg_closed {α : Type} {R : α → α → Prop} {P : α → Prop}
    (hc : ∀ a b, R a b → P a → P b) {x y : α}
    (hxy : ReflTransGen R x y) (hx : P x) : P y := by
  induction hxy with
  | refl => exact hx
  | tail _ hs ih => exact hc _ _ hs ih

theorem comp_avoid {α : Type} {R : α → α → Prop} {P : α → Prop}
    (hSym : ∀ a b, R a b → R b a) (hc : ∀ a b, R a b → P a → P b)
    {s g : α} (hs : ¬ P s) (hg : ReflTransGen R s g) : ¬ P g :=
  fun hPg => hs (rtg_closed hc (rtg_symm hSym hg) hPg)

theorem reach_congr {α : Type} {R : α → α → Prop}
    (hSym : ∀ a b, R a b → R b a) {s f g : α}
    (hsf : ReflTransGen R s f) :
    ReflTransGen R f g ↔ ReflTransGen R s g :=
  ⟨fun hfg => hsf.trans hfg, fun hsg => (rtg_symm hSym hsf).trans hsg⟩

/-- The mask-restricted step relation of the analyze_mesh BFS: both faces
are candidates and `b` is a listed neighbor of `a`. -/
def Rm (n : ℕ) (adj : Fin n → List (Fin n)) (mask : Fin n → Bool)
    (a b : Fin n) : Prop :=
  mask a = true ∧ mask b = true ∧ b ∈ adj a

/-- The raw step relation of the `_findConnectedRegions` BFS. -/
def AdjRel (n : ℕ) (adj : Fin n → List (Fin n)) (a b : Fin n) : Prop :=
  b ∈ adj a

/-- The inner BFS of `find_connected_overhang_regions` (lines 250-263):
pop a face; skip it when already visited or not a candidate; otherwise
mark it visited, collect it, and enqueue its not-yet-visited neighbors. -/
def bfsGoA (n : ℕ) (adj : Fin n → List (Fin n)) (mask : Fin n → Bool)
    (visited : Finset (Fin n)) (queue region : List (Fin n)) :
    Finset (Fin n) × List (Fin n) :=
  match queue with
  | [] => (visited, region)
  | f :: rest =>
    if f ∈ visited ∨ mask f = false then
      bfsGoA n adj mask visited rest region
    else
      bfsGoA n adj mask (insert f visited)
        (rest ++ (adj f).filter fun g => decide (g ∉ insert f visited))
        (region ++ [f])
termination_by (n - visited.card, queue.length)
decreasing_by
  · exact Prod.Lex.right _ (by simp)
  · apply Prod.Lex.left
    have hf : f ∉ visited := by tauto
    have h1 : visited.card + 1 ≤ n := by
      rw [← Finset.card_insert_of_not_mem hf]
      simpa using Finset.card_le_univ (insert f visited)
    rw [Finset.card_insert_of_not_mem hf]
    omega

/-- The seed loop of `find_connected_overhang_regions` (lines 244-266):
visited seeds are skipped, each BFS result is kept when nonempty, and the
visited set carries over from one seed to the next. -/
def findRegionsA (n : ℕ) (adj : Fin n → List (Fin n)) (mask : Fin n → Bool) :
    List (Fin n) → Finset (Fin n) → List (List (Fin n))
  | [], _ => []
  | s :: seeds, visited =>
    if s ∈ visited then findRegionsA n adj mask seeds visited
    else if (bfsGoA n adj mask visited [s] []).2 = [] then
      findRegionsA n adj mask seeds (bfsGoA n adj mask visited [s] []).1
    else
      (bfsGoA n adj mask visited [s] []).2 ::
        findRegionsA n adj mask seeds (bfsGoA n adj mask visited [s] []).1

/-- `find_connected_overhang_regions(overhang_face_ids, overhang_mask,
adjacency)`: the seed loop started with an empty visited set. -/
def find_connected_overhang_regions (n : ℕ) (adj : Fin n → List (Fin n))
    (mask : Fin n → Bool) (seeds : List (Fin n)) : List (List (Fin n)) :=
  findRegionsA n adj mask seeds ∅

/-- The neighbor loop of the `_findConnectedRegions` BFS (lines 3583-3586):
walk the neighbor list, marking each unvisited neighbor visited and
appending it to the queue. Returns the new visited set and the enqueued
neighbors in order. -/
def enqAll (n : ℕ) (visited : Finset (Fin n)) :
    List (Fin n) → Finset (Fin n) × List (Fin n)
  | [] => (visited, [])
  | g :: gs =>
    if g ∈ visited then enqAll n visited gs
    else ((enqAll n (insert g visited) gs).1,
      g :: (enqAll n (insert g visited) gs).2)

theorem enqAll_mem_fst (n : ℕ) :
    ∀ (gs : List (Fin n)) (V : Finset (Fin n)) (x : Fin n),
      x ∈ (enqAll n V gs).1 ↔ x ∈ V ∨ x ∈ gs := by
  intro gs
  induction gs with
  | nil => intro V x; simp [enqAll]
  | cons g gs ih =>
    intro V x
    rw [enqAll]
    by_cases hg : g ∈ V
    · rw [if_pos hg, ih]
      constructor
      · rintro (h | h)
        · exact Or.inl h
        · exact Or.inr (List.mem_cons_of_mem g h)
      · rintro (h | h)
        · exact Or.inl h
        · rcases List.mem_cons.mp h with rfl | h
          · exact Or.inl hg
          · exact Or.inr h
    · rw [if_neg hg]
      simp only [ih, Finset.mem_insert, List.mem_cons]
      tauto

theorem enqAll_mem_snd (n : ℕ) :
    ∀ (gs : List (Fin n)) (V : Finset (Fin n)) (x : Fin n),
      x ∈ (enqAll n V gs).2 ↔ x ∈ gs ∧ x ∉ V := by
  intro gs
  induction gs with
  | nil => intro V x; simp [enqAll]
  | cons g gs ih =>
    intro V x
    rw [enqAll]
    by_cases hg : g ∈ V
    · rw [if_pos hg, ih]
      simp only [List.mem_cons]
      constructor
      · rintro ⟨h1, h2⟩; exact ⟨Or.inr h1, h2⟩
      · rintro ⟨h1 | h1, h2⟩
        · exact absurd hg (h1 ▸ h2)
        · exact ⟨h1, h2⟩
    · rw [if_neg hg]
      simp only [List.mem_cons, ih, Finset.mem_insert]
      constructor
      · rintro (rfl | ⟨h1, h2⟩)
        · exact ⟨Or.inl rfl, hg⟩
        · refine ⟨Or.inr h1, fun hx => h2 (Or.inr hx)⟩
      · rintro ⟨rfl | h1, h2⟩
        · exact Or.inl rfl
        · by_cases hxg : x = g
          · exact Or.inl hxg
          · exact Or.inr ⟨h1, fun h => (by tauto : False)⟩

theorem enqAll_nodup_snd (n : ℕ) :
    ∀ (gs : List (Fin n)) (V : Finset (Fin n)), (enqAll n V gs).2.Nodup := by
  intro gs
  induction gs with
  | nil => intro V; simp [enqAll]
  | cons g gs ih =>
    intro V
    rw [enqAll]
    by_cases hg : g ∈ V
    · rw [if_pos hg]; exact ih V
    · rw [if_neg hg]
      refine List.Nodup.cons ?_ (ih (insert g V))
      intro hmem
      have := (enqAll_mem_snd n gs (insert g V) g).mp hmem
      exact this.2 (Finset.mem_insert_self g V)

theorem enqAll_card (n : ℕ) :
    ∀ (gs : List (Fin n)) (V : Finset (Fin n)),
      (enqAll n V gs).1.card = V.card + (enqAll n V gs).2.length := by
  intro gs
  induction gs with
  | nil => intro V; simp [enqAll]
  | cons g gs ih =>
    intro V
    rw [enqAll]
    by_cases hg : g ∈ V
    · rw [if_pos hg]; exact ih V
    · rw [if_neg hg]
      simp only [List.length_cons]
      rw [ih (insert g V), Finset.card_insert_of_not_mem hg]
      omega

/-- The inner BFS of `_findConnectedRegions` (lines 3579-3586): pop a
face, collect it, mark-and-enqueue its unvisited neighbors. Every queued
face is already visited. -/
def bfsGoB (n : ℕ) (adj : Fin n → List (Fin n)) (visited : Finset (Fin n))
    (queue region : List (Fin n)) : Finset (Fin n) × List (Fin n) :=
  match queue with
  | [] => (visited, region)
  | f :: rest =>
    bfsGoB n adj (enqAll n visited (adj f)).1
      (rest ++ (enqAll n visited (adj f)).2) (region ++ [f])
termination_by (n - visited.card) + queue.length
decreasing_by
  have h1 := enqAll_card n (adj f) visited
  have h2 : (enqAll n visited (adj f)).1.card ≤ n := by
    simpa using Finset.card_le_univ (enqAll n visited (adj f)).1
  simp only [List.length_append, List.length_cons]
  omega

/-- The seed loop of `_findConnectedRegions` (lines 3570-3589): skip
visited seeds; otherwise mark the seed visited, run the BFS from it, and
always append the region (it contains at least the seed). -/
def findRegionsB (n : ℕ) (adj : Fin n → List (Fin n)) :
    List (Fin n) → Finset (Fin n) → List (List (Fin n))
  | [], _ => []
  | s :: seeds, visited =>
    if s ∈ visited then findRegionsB n adj seeds visited
    else
      (bfsGoB n adj (insert s visited) [s] []).2 ::
        findRegionsB n adj seeds (bfsGoB n adj (insert s visited) [s] []).1

/-- `_findConnectedRegions`: the seed loop from an empty visited set, then
`regions.sort(key=len, reverse=True)` — a stable sort by size, largest
first. -/
def findConnectedRegions (n : ℕ) (adj : Fin n → List (Fin n))
    (seeds : List (Fin n)) : List (List (Fin n)) :=
  (findRegionsB n adj seeds ∅).mergeSort fun a b =>
    decide (b.length ≤ a.length)

theorem bfsGoA_invariant (n : ℕ) (adj : Fin n → List (Fin n))
    (mask : Fin n → Bool) (s : Fin n) (V0 : Finset (Fin n))
    (hs : mask s = true) :
    ∀ (V : Finset (Fin n)) (Q region : List (Fin n)),
    (∀ f, f ∈ V ↔ f ∈ V0 ∨ f ∈ region) →
    (∀ f ∈ region, mask f = true ∧ ReflTransGen (Rm n adj mask) s f) →
    region.Nodup →
    (∀ g ∈ Q, mask g = true → ReflTransGen (Rm n adj mask) s g) →
    (∀ a b, Rm n adj mask a b → a ∈ region → b ∈ V ∨ b ∈ Q) →
    (s ∈ V ∨ s ∈ Q) →
    (∀ f, f ∈ (bfsGoA n adj mask V Q region).1 ↔
        f ∈ V0 ∨ f ∈ (bfsGoA n adj mask V Q region).2) ∧
    (∀ f ∈ (bfsGoA n adj mask V Q region).2,
        mask f = true ∧ ReflTransGen (Rm n adj mask) s f) ∧
    (bfsGoA n adj mask V Q region).2.Nodup ∧
    (∀ a b, Rm n adj mask a b → a ∈ (bfsGoA n adj mask V Q region).2 →
        b ∈ (bfsGoA n adj mask V Q region).1) ∧
    s ∈ (bfsGoA n adj mask V Q region).1 ∧
    (∀ f ∈ region, f ∈ (bfsGoA n adj mask V Q region).2) := by
  intro V Q region
  induction V, Q, region using bfsGoA.induct n adj mask with
  | case1 V region =>
    intro h1 h2 h3 h4 h5 h6
    rw [bfsGoA]
    refine ⟨h1, h2, h3, ?_, ?_, fun f hf => hf⟩
    · intro a b hab ha
      rcases h5 a b hab ha with h | h
      · exact h
      · exact absurd h (List.not_mem_nil b)
    · rcases h6 with h | h
      · exact h
      · exact absurd h (List.not_mem_nil s)
  | case2 V region f rest h ih =>
    intro h1 h2 h3 h4 h5 h6
    rw [bfsGoA, if_pos h]
    refine ih h1 h2 h3 ?_ ?_ ?_
    · intro g hg; exact h4 g (List.mem_cons_of_mem f hg)
    · intro a b hab ha
      rcases h5 a b hab ha with hb | hb
      · exact Or.inl hb
      · rcases List.mem_cons.mp hb with rfl | hb
        · rcases h with h | h
          · exact Or.inl h
          · exact absurd hab.2.1 (by simp [h])
        · exact Or.inr hb
    · rcases h6 with hsv | hsq
      · exact Or.inl hsv
      · rcases List.mem_cons.mp hsq with rfl | hsq
        · rcases h with h | h
          · exact Or.inl h
          · exact absurd hs (by simp [h])
        · exact Or.inr hsq
  | case3 V region f rest h ih =>
    intro h1 h2 h3 h4 h5 h6
    push_neg at h
    obtain ⟨hfv, hfm⟩ := h
    have hfm' : mask f = true := by
      cases hq : mask f
      · exact absurd hq hfm
      · rfl
    have hfreach : ReflTransGen (Rm n adj mask) s f :=
      h4 f (List.mem_cons_self f rest) hfm'
    have hfnotreg : f ∉ region := fun hf => hfv ((h1 f).mpr (Or.inr hf))
    have hV0V : ∀ x, x ∈ V0 → x ∈ V := fun x hx => (h1 x).mpr (Or.inl hx)
    rw [bfsGoA, if_neg (by tauto)]
    refine (fun hih => ⟨hih.1, hih.2.1, hih.2.2.1, hih.2.2.2.1,
      hih.2.2.2.2.1, fun x hx =>
        hih.2.2.2.2.2 x (List.mem_append_left _ hx)⟩)
      (ih ?_ ?_ ?_ ?_ ?_ ?_)
    · intro x
      simp only [Finset.mem_insert, List.mem_append, List.mem_singleton, h1]
      tauto
    · intro g hg
      rcases List.mem_append.mp hg with hg | hg
      · exact h2 g hg
      · rcases List.mem_singleton.mp hg with rfl
        exact ⟨hfm', hfreach⟩
    · exact List.Nodup.append h3 (List.nodup_singleton f)
        (by simpa using hfnotreg)
    · intro g hg hgm
      rcases List.mem_append.mp hg with hg | hg
      · exact h4 g (List.mem_cons_of_mem f hg) hgm
      · have := List.mem_filter.mp hg
        exact hfreach.tail ⟨hfm', hgm, this.1⟩
    · intro a b hab ha
      rcases List.mem_append.mp ha with ha | ha
      · rcases h5 a b hab ha with hb | hb
        · exact Or.inl (Finset.mem_insert_of_mem hb)
        · rcases List.mem_cons.mp hb with rfl | hb
          · exact Or.inl (Finset.mem_insert_self b V)
          · exact Or.inr (List.mem_append_left _ hb)
      · rcases List.mem_singleton.mp ha with rfl
        by_cases hbv : b ∈ insert a V
        · exact Or.inl hbv
        · refine Or.inr (List.mem_append_right _ ?_)
          exact List.mem_filter.mpr ⟨hab.2.2, by simpa using hbv⟩
    · rcases h6 with hsv | hsq
      · exact Or.inl (Finset.mem_insert_of_mem hsv)
      · rcases List.mem_cons.mp hsq with rfl | hsq
        · exact Or.inl (Finset.mem_insert_self s V)
        · exact Or.inr (List.mem_append_left _ hsq)

theorem Rm_symm (n : ℕ) (adj : Fin n → List (Fin n)) (mask : Fin n → Bool)
    (hSym : ∀ a b, b ∈ adj a → a ∈ adj b) :
    ∀ a b, Rm n adj mask a b → Rm n adj mask b a :=
  fun a b h => ⟨h.2.1, h.1, hSym a b h.2.2⟩

theorem bfsA_component (n : ℕ) (adj : Fin n → List (Fin n))
    (mask : Fin n → Bool) (hSym : ∀ a b, b ∈ adj a → a ∈ adj b)
    (s : Fin n) (V0 : Finset (Fin n)) (hs : mask s = true) (hsV0 : s ∉ V0)
    (hV0c : ∀ a b, Rm n adj mask a b → a ∈ V0 → b ∈ V0) :
    (∀ g, g ∈ (bfsGoA n adj mask V0 [s] []).2 ↔
        ReflTransGen (Rm n adj mask) s g) ∧
    (∀ f, f ∈ (bfsGoA n adj mask V0 [s] []).1 ↔
        f ∈ V0 ∨ f ∈ (bfsGoA n adj mask V0 [s] []).2) ∧
    (bfsGoA n adj mask V0 [s] []).2.Nodup := by
  obtain ⟨c1, c2, c3, c4, c5, _⟩ :=
    bfsGoA_invariant n adj mask s V0 hs V0 [s] []
      (fun f => by simp)
      (fun f hf => absurd hf (List.not_mem_nil f))
      List.nodup_nil
      (fun g hg _ => by
        rcases List.mem_singleton.mp hg with rfl
        exact ReflTransGen.refl)
      (fun a b _ ha => absurd ha (List.not_mem_nil a))
      (Or.inr (List.mem_singleton_self s))
  have hsreg : s ∈ (bfsGoA n adj mask V0 [s] []).2 := by
    rcases (c1 s).mp c5 with h | h
    · exact absurd h hsV0
    · exact h
  refine ⟨fun g => ⟨fun hg => (c2 g hg).2, ?_⟩, c1, c3⟩
  intro hreach
  induction hreach with
  | refl => exact hsreg
  | tail hp hstep ih =>
    rcases (c1 _).mp (c4 _ _ hstep ih) with h | h
    · exact absurd h
        (comp_avoid (Rm_symm n adj mask hSym) hV0c hsV0 (hp.tail hstep))
    · exact h

theorem findRegionsA_spec (n : ℕ) (adj : Fin n → List (Fin n))
    (mask : Fin n → Bool) (hSym : ∀ a b, b ∈ adj a → a ∈ adj b) :
    ∀ (seeds : List (Fin n)) (V0 : Finset (Fin n)),
    (∀ f ∈ seeds, mask f = true) →
    (∀ a b, Rm n adj mask a b → a ∈ V0 → b ∈ V0) →
    (∀ r ∈ findRegionsA n adj mask seeds V0,
      (∃ t, mask t = true ∧
        ∀ g, g ∈ r ↔ ReflTransGen (Rm n adj mask) t g) ∧
      r.Nodup ∧ (∀ g ∈ r, g ∉ V0)) ∧
    (∀ f ∈ seeds, f ∉ V0 →
      ∃ r ∈ findRegionsA n adj mask seeds V0, f ∈ r) ∧
    List.Pairwise (fun r₁ r₂ => ∀ g ∈ r₁, g ∉ r₂)
      (findRegionsA n adj mask seeds V0) := by
  intro seeds
  induction seeds with
  | nil =>
    intro V0 _ _
    rw [findRegionsA]
    exact ⟨fun r hr => absurd hr (List.not_mem_nil r),
      fun f hf => absurd hf (List.not_mem_nil f), List.Pairwise.nil⟩
  | cons s seeds ih =>
    intro V0 hm hc
    rw [findRegionsA]
    by_cases hsv : s ∈ V0
    · rw [if_pos hsv]
      obtain ⟨q1, q2, q3⟩ :=
        ih V0 (fun f hf => hm f (List.mem_cons_of_mem s hf)) hc
      refine ⟨q1, ?_, q3⟩
      intro f hf hf0
      rcases List.mem_cons.mp hf with rfl | hf
      · exact absurd hsv hf0
      · exact q2 f hf hf0
    · rw [if_neg hsv]
      have hsm : mask s = true := hm s (List.mem_cons_self s seeds)
      obtain ⟨hchar, hdec, hnd⟩ :=
        bfsA_component n adj mask hSym s V0 hsm hsv hc
      have hsreg : s ∈ (bfsGoA n adj mask V0 [s] []).2 :=
        (hchar s).mpr ReflTransGen.refl
      have hne : ¬ (bfsGoA n adj mask V0 [s] []).2 = [] := by
        intro h
        rw [h] at hsreg
        exact List.not_mem_nil s hsreg
      rw [if_neg hne]
      have hc' : ∀ a b, Rm n adj mask a b →
          a ∈ (bfsGoA n adj mask V0 [s] []).1 →
          b ∈ (bfsGoA n adj mask V0 [s] []).1 := by
        intro a b hab ha
        rcases (hdec a).mp ha with h | h
        · exact (hdec b).mpr (Or.inl (hc a b hab h))
        · exact (hdec b).mpr (Or.inr ((hchar b).mpr
            (((hchar a).mp h).tail hab)))
      obtain ⟨q1, q2, q3⟩ := ih (bfsGoA n adj mask V0 [s] []).1
        (fun f hf => hm f (List.mem_cons_of_mem s hf)) hc'
      have hsubV : ∀ x, x ∈ V0 → x ∈ (bfsGoA n adj mask V0 [s] []).1 :=
        fun x hx => (hdec x).mpr (Or.inl hx)
      refine ⟨?_, ?_, ?_⟩
      · intro r hr
        rcases List.mem_cons.mp hr with rfl | hr
        · exact ⟨⟨s, hsm, hchar⟩, hnd, fun g hg =>
            comp_avoid (Rm_symm n adj mask hSym) hc hsv ((hchar g).mp hg)⟩
        · obtain ⟨hex, hnd', hnotin⟩ := q1 r hr
          exact ⟨hex, hnd', fun g hg hg0 => hnotin g hg (hsubV g hg0)⟩
      · intro f hf hf0
        rcases List.mem_cons.mp hf with rfl | hf
        · exact ⟨_, List.mem_cons_self _ _, hsreg⟩
        · by_cases hfr : f ∈ (bfsGoA n adj mask V0 [s] []).2
          · exact ⟨_, List.mem_cons_self _ _, hfr⟩
          · have hf' : f ∉ (bfsGoA n adj mask V0 [s] []).1 := by
              intro h
              rcases (hdec f).mp h with h | h
              · exact hf0 h
              · exact hfr h
            obtain ⟨r, hr, hfr'⟩ := q2 f hf hf'
            exact ⟨r, List.mem_cons_of_mem _ hr, hfr'⟩
      · refine List.Pairwise.cons ?_ q3
        intro r' hr' g hg
        obtain ⟨_, _, hnotin⟩ := q1 r' hr'
        intro hgr'
        exact hnotin g hgr' ((hdec g).mpr (Or.inr hg))

theorem bfsGoB_invariant (n : ℕ) (adj : Fin n → List (Fin n)) (s : Fin n)
    (V0 : Finset (Fin n)) :
    ∀ (V : Finset (Fin n)) (Q region : List (Fin n)),
    (∀ f, f ∈ V ↔ f ∈ V0 ∨ f ∈ region ∨ f ∈ Q) →
    (∀ f, f ∈ region ∨ f ∈ Q → ReflTransGen (AdjRel n adj) s f) →
    region.Nodup → Q.Nodup → (∀ x ∈ region, x ∉ Q) →
    (∀ a b, b ∈ adj a → a ∈ region → b ∈ V) →
    (∀ f, f ∈ (bfsGoB n adj V Q region).1 ↔
        f ∈ V0 ∨ f ∈ (bfsGoB n adj V Q region).2) ∧
    (∀ f ∈ (bfsGoB n adj V Q region).2, ReflTransGen (AdjRel n adj) s f) ∧
    (bfsGoB n adj V Q region).2.Nodup ∧
    (∀ a b, b ∈ adj a → a ∈ (bfsGoB n adj V Q region).2 →
        b ∈ (bfsGoB n adj V Q region).1) ∧
    (∀ x, x ∈ region ∨ x ∈ Q → x ∈ (bfsGoB n adj V Q region).2) := by
  intro V Q region
  induction V, Q, region using bfsGoB.induct n adj with
  | case1 V region =>
    intro h1 h2 h3 _ _ h6
    rw [bfsGoB]
    refine ⟨?_, fun f hf => h2 f (Or.inl hf), h3, h6, ?_⟩
    · intro f
      rw [h1 f]
      simp
    · intro x hx
      rcases hx with hx | hx
      · exact hx
      · exact absurd hx (List.not_mem_nil x)
  | case2 V region f rest ih =>
    intro h1 h2 h3 h4 h5 h6
    have hfQ : f ∈ f :: rest := List.mem_cons_self f rest
    have hfV : f ∈ V := (h1 f).mpr (Or.inr (Or.inr hfQ))
    have hfreach : ReflTransGen (AdjRel n adj) s f := h2 f (Or.inr hfQ)
    have hQsubV : ∀ x, x ∈ f :: rest → x ∈ V :=
      fun x hx => (h1 x).mpr (Or.inr (Or.inr hx))
    have hRsubV : ∀ x, x ∈ region → x ∈ V :=
      fun x hx => (h1 x).mpr (Or.inr (Or.inl hx))
    rw [bfsGoB]
    refine (fun hih => ⟨hih.1, hih.2.1, hih.2.2.1, hih.2.2.2.1,
      fun x hx => hih.2.2.2.2 x (by
        rcases hx with hx | hx
        · exact Or.inl (List.mem_append_left _ hx)
        · rcases List.mem_cons.mp hx with rfl | hx
          · exact Or.inl (List.mem_append_right _ (List.mem_singleton_self x))
          · exact Or.inr (List.mem_append_left _ hx))⟩)
      (ih ?_ ?_ ?_ ?_ ?_ ?_)
    · intro x
      rw [enqAll_mem_fst]
      constructor
      · rintro (hx | hx)
        · rcases (h1 x).mp hx with h | h | h
          · exact Or.inl h
          · exact Or.inr (Or.inl (List.mem_append_left _ h))
          · rcases List.mem_cons.mp h with rfl | h
            · exact Or.inr (Or.inl (List.mem_append_right _
                (List.mem_singleton_self x)))
            · exact Or.inr (Or.inr (List.mem_append_left _ h))
        · by_cases hxv : x ∈ V
          · rcases (h1 x).mp hxv with h | h | h
            · exact Or.inl h
            · exact Or.inr (Or.inl (List.mem_append_left _ h))
            · rcases List.mem_cons.mp h with rfl | h
              · exact Or.inr (Or.inl (List.mem_append_right _
                  (List.mem_singleton_self x)))
              · exact Or.inr (Or.inr (List.mem_append_left _ h))
          · exact Or.inr (Or.inr (List.mem_append_right _
              ((enqAll_mem_snd n (adj f) V x).mpr ⟨hx, hxv⟩)))
      · rintro (hx | hx | hx)
        · exact Or.inl ((h1 x).mpr (Or.inl hx))
        · rcases List.mem_append.mp hx with h | h
          · exact Or.inl (hRsubV x h)
          · rcases List.mem_singleton.mp h with rfl
            exact Or.inl hfV
        · rcases List.mem_append.mp hx with h | h
          · exact Or.inl (hQsubV x (List.mem_cons_of_mem f h))
          · exact Or.inr ((enqAll_mem_snd n (adj f) V x).mp h).1
    · intro x hx
      rcases hx with hx | hx
      · rcases List.mem_append.mp hx with h | h
        · exact h2 x (Or.inl h)
        · rcases List.mem_singleton.mp h with rfl
          exact hfreach
      · rcases List.mem_append.mp hx with h | h
        · exact h2 x (Or.inr (List.mem_cons_of_mem f h))
        · exact hfreach.tail ((enqAll_mem_snd n (adj f) V x).mp h).1
    · refine List.Nodup.append h3 (List.nodup_singleton f) ?_
      intro x hx hx'
      rcases List.mem_singleton.mp hx' with rfl
      exact h5 x hx hfQ
    · refine List.Nodup.append ((List.nodup_cons.mp h4).2)
        (enqAll_nodup_snd n (adj f) V) ?_
      intro x hx hx'
      exact ((enqAll_mem_snd n (adj f) V x).mp hx').2
        (hQsubV x (List.mem_cons_of_mem f hx))
    · intro x hx hx'
      rcases List.mem_append.mp hx with h | h
      · rcases List.mem_append.mp hx' with h' | h'
        · exact h5 x h (List.mem_cons_of_mem f h')
        · exact ((enqAll_mem_snd n (adj f) V x).mp h').2 (hRsubV x h)
      · have hxf : x = f := List.mem_singleton.mp h
        subst hxf
        rcases List.mem_append.mp hx' with h' | h'
        · exact (List.nodup_cons.mp h4).1 h'
        · exact ((enqAll_mem_snd n (adj x) V x).mp h').2 hfV
    · intro a b hab ha
      rw [enqAll_mem_fst]
      rcases List.mem_append.mp ha with h | h
      · exact Or.inl (h6 a b hab h)
      · rcases List.mem_singleton.mp h with rfl
        exact Or.inr hab

theorem bfsB_component (n : ℕ) (adj : Fin n → List (Fin n))
    (hSym : ∀ a b, b ∈ adj a → a ∈ adj b) (s : Fin n) (V0 : Finset (Fin n))
    (hsV0 : s ∉ V0)
    (hV0c : ∀ a b, b ∈ adj a → a ∈ V0 → b ∈ V0) :
    (∀ g, g ∈ (bfsGoB n adj (insert s V0) [s] []).2 ↔
        ReflTransGen (AdjRel n adj) s g) ∧
    (∀ f, f ∈ (bfsGoB n adj (insert s V0) [s] []).1 ↔
        f ∈ V0 ∨ f ∈ (bfsGoB n adj (insert s V0) [s] []).2) ∧
    (bfsGoB n adj (insert s V0) [s] []).2.Nodup := by
  obtain ⟨c1, c2, c3, c4, c5⟩ :=
    bfsGoB_invariant n adj s V0 (insert s V0) [s] []
      (fun f => by simp [or_comm])
      (fun f hf => by
        rcases hf with hf | hf
        · exact absurd hf (List.not_mem_nil f)
        · rcases List.mem_singleton.mp hf with rfl
          exact ReflTransGen.refl)
      List.nodup_nil (List.nodup_singleton s)
      (fun x hx => absurd hx (List.not_mem_nil x))
      (fun a b _ ha => absurd ha (List.not_mem_nil a))
  have hsreg : s ∈ (bfsGoB n adj (insert s V0) [s] []).2 :=
    c5 s (Or.inr (List.mem_singleton_self s))
  refine ⟨fun g => ⟨fun hg => c2 g hg, ?_⟩, c1, c3⟩
  intro hreach
  induction hreach with
  | refl => exact hsreg
  | tail hp hstep ih =>
    rcases (c1 _).mp (c4 _ _ hstep ih) with h | h
    · exact absurd h
        (comp_avoid (fun a b hab => hSym a b hab) hV0c hsV0 (hp.tail hstep))
    · exact h

theorem findRegionsB_spec (n : ℕ) (adj : Fin n → List (Fin n))
    (hSym : ∀ a b, b ∈ adj a → a ∈ adj b) :
    ∀ (seeds : List (Fin n)) (V0 : Finset (Fin n)),
    (∀ a b, b ∈ adj a → a ∈ V0 → b ∈ V0) →
    (∀ r ∈ findRegionsB n adj seeds V0,
      (∃ t, t ∈ seeds ∧
        ∀ g, g ∈ r ↔ ReflTransGen (AdjRel n adj) t g) ∧
      r.Nodup ∧ (∀ g ∈ r, g ∉ V0)) ∧
    (∀ f ∈ seeds, f ∉ V0 →
      ∃ r ∈ findRegionsB n adj seeds V0, f ∈ r) ∧
    List.Pairwise (fun r₁ r₂ => ∀ g ∈ r₁, g ∉ r₂)
      (findRegionsB n adj seeds V0) := by
  intro seeds
  induction seeds with
  | nil =>
    intro V0 _
    rw [findRegionsB]
    exact ⟨fun r hr => absurd hr (List.not_mem_nil r),
      fun f hf => absurd hf (List.not_mem_nil f), List.Pairwise.nil⟩
  | cons s seeds ih =>
    intro V0 hc
    rw [findRegionsB]
    by_cases hsv : s ∈ V0
    · rw [if_pos hsv]
      obtain ⟨q1, q2, q3⟩ := ih V0 hc
      refine ⟨?_, ?_, q3⟩
      · intro r hr
        obtain ⟨⟨t, ht, hch⟩, hnd, hni⟩ := q1 r hr
        exact ⟨⟨t, List.mem_cons_of_mem s ht, hch⟩, hnd, hni⟩
      · intro f hf hf0
        rcases List.mem_cons.mp hf with rfl | hf
        · exact absurd hsv hf0
        · exact q2 f hf hf0
    · rw [if_neg hsv]
      obtain ⟨hchar, hdec, hnd⟩ := bfsB_component n adj hSym s V0 hsv hc
      have hsreg : s ∈ (bfsGoB n adj (insert s V0) [s] []).2 :=
        (hchar s).mpr ReflTransGen.refl
      have hc' : ∀ a b, b ∈ adj a →
          a ∈ (bfsGoB n adj (insert s V0) [s] []).1 →
          b ∈ (bfsGoB n adj (insert s V0) [s] []).1 := by
        intro a b hab ha
        rcases (hdec a).mp ha with h | h
        · exact (hdec b).mpr (Or.inl (hc a b hab h))
        · exact (hdec b).mpr (Or.inr ((hchar b).mpr
            (((hchar a).mp h).tail hab)))
      obtain ⟨q1, q2, q3⟩ := ih (bfsGoB n adj (insert s V0) [s] []).1 hc'
      have hsubV : ∀ x, x ∈ V0 →
          x ∈ (bfsGoB n adj (insert s V0) [s] []).1 :=
        fun x hx => (hdec x).mpr (Or.inl hx)
      refine ⟨?_, ?_, ?_⟩
      · intro r hr
        rcases List.mem_cons.mp hr with rfl | hr
        · exact ⟨⟨s, List.mem_cons_self s seeds, hchar⟩, hnd, fun g hg =>
            comp_avoid (fun a b hab => hSym a b hab) hc hsv
              ((hchar g).mp hg)⟩
        · obtain ⟨⟨t, ht, hch⟩, hnd', hnotin⟩ := q1 r hr
          exact ⟨⟨t, List.mem_cons_of_mem s ht, hch⟩, hnd',
            fun g hg hg0 => hnotin g hg (hsubV g hg0)⟩
      · intro f hf hf0
        rcases List.mem_cons.mp hf with rfl | hf
        · exact ⟨_, List.mem_cons_self _ _, hsreg⟩
        · by_cases hfr : f ∈ (bfsGoB n adj (insert s V0) [s] []).2
          · exact ⟨_, List.mem_cons_self _ _, hfr⟩
          · have hf' : f ∉ (bfsGoB n adj (insert s V0) [s] []).1 := by
              intro h
              rcases (hdec f).mp h with h | h
              · exact hf0 h
              · exact hfr h
            obtain ⟨r, hr, hfr'⟩ := q2 f hf hf'
            exact ⟨r, List.mem_cons_of_mem _ hr, hfr'⟩
      · refine List.Pairwise.cons ?_ q3
        intro r' hr' g hg
        obtain ⟨_, _, hnotin⟩ := q1 r' hr'
        intro hgr'
        exact hnotin g hgr' ((hdec g).mpr (Or.inr hg))

theorem regionsA_char (n : ℕ) (adj : Fin n → List (Fin n))
    (mask : Fin n → Bool) (hSym : ∀ a b, b ∈ adj a → a ∈ adj b)
    (seeds : List (Fin n)) (hm : ∀ f, f ∈ seeds ↔ mask f = true)
    (F : Finset (Fin n)) :
    F ∈ (find_connected_overhang_regions n adj mask seeds).map
        List.toFinset ↔
      ∃ f, mask f = true ∧
        ∀ g, g ∈ F ↔ ReflTransGen (Rm n adj mask) f g := by
  obtain ⟨q1, q2, _⟩ := findRegionsA_spec n adj mask hSym seeds ∅
    (fun f hf => (hm f).mp hf) (fun a b _ ha => absurd ha (by simp))
  constructor
  · intro hF
    obtain ⟨r, hr, rfl⟩ := List.mem_map.mp hF
    obtain ⟨⟨t, htm, hch⟩, _, _⟩ := q1 r hr
    exact ⟨t, htm, fun g => by rw [List.mem_toFinset]; exact hch g⟩
  · rintro ⟨f, hfm, hFch⟩
    obtain ⟨r, hr, hfr⟩ := q2 f ((hm f).mpr hfm) (by simp)
    obtain ⟨⟨t, htm, hch⟩, _, _⟩ := q1 r hr
    have htf : ReflTransGen (Rm n adj mask) t f := (hch f).mp hfr
    refine List.mem_map.mpr ⟨r, hr, ?_⟩
    ext g
    rw [List.mem_toFinset, hch g, ← reach_congr (Rm_symm n adj mask hSym) htf,
      ← hFch g]

theorem AdjRel_symm (n : ℕ) (adj : Fin n → List (Fin n))
    (hSym : ∀ a b, b ∈ adj a → a ∈ adj b) :
    ∀ a b, AdjRel n adj a b → AdjRel n adj b a :=
  fun a b h => hSym a b h

theorem regionsB_char (n : ℕ) (adj : Fin n → List (Fin n))
    (mask : Fin n → Bool) (hSym : ∀ a b, b ∈ adj a → a ∈ adj b)
    (seeds : List (Fin n)) (hm : ∀ f, f ∈ seeds ↔ mask f = true)
    (F : Finset (Fin n)) :
    F ∈ (findRegionsB n adj seeds ∅).map List.toFinset ↔
      ∃ f, mask f = true ∧
        ∀ g, g ∈ F ↔ ReflTransGen (AdjRel n adj) f g := by
  obtain ⟨q1, q2, _⟩ := findRegionsB_spec n adj hSym seeds ∅
    (fun a b _ ha => absurd ha (by simp))
  constructor
  · intro hF
    obtain ⟨r, hr, rfl⟩ := List.mem_map.mp hF
    obtain ⟨⟨t, hts, hch⟩, _, _⟩ := q1 r hr
    exact ⟨t, (hm t).mp hts, fun g => by rw [List.mem_toFinset]; exact hch g⟩
  · rintro ⟨f, hfm, hFch⟩
    obtain ⟨r, hr, hfr⟩ := q2 f ((hm f).mpr hfm) (by simp)
    obtain ⟨⟨t, hts, hch⟩, _, _⟩ := q1 r hr
    have htf : ReflTransGen (AdjRel n adj) t f := (hch f).mp hfr
    refine List.mem_map.mpr ⟨r, hr, ?_⟩
    ext g
    rw [List.mem_toFinset, hch g,
      ← reach_congr (AdjRel_symm n adj hSym) htf, ← hFch g]

theorem sortB_perm (n : ℕ) (adj : Fin n → List (Fin n))
    (seeds : List (Fin n)) :
    List.Perm (findConnectedRegions n adj seeds)
      (findRegionsB n adj seeds ∅) :=
  List.mergeSort_perm (findRegionsB n adj seeds ∅) _

/-- **C7**: over every mesh adjacency and candidate mask, both
region-growing routines return a partition of the candidate faces into
connected components, and the partition does not depend on the seed
order. For `find_connected_overhang_regions` (seed list enumerating the
mask, full-mesh adjacency `adjA`, symmetric): the regions are pairwise
disjoint, every candidate face lies in one of them, each region is
duplicate-free and is exactly the set of faces connected to any of its
members through candidate faces (`Rm`), and the set of regions (as face
sets) is the same for any two seed enumerations. For
`_findConnectedRegions` (overhang-only adjacency `adjB`, symmetric and
confined to candidate faces): the same four properties hold with
connectivity in `adjB`, including invariance under reordering of the
overhang id list. -/
theorem claim_C7_region_growing_partition
    (n : ℕ) (adjA adjB : Fin n → List (Fin n)) (mask : Fin n → Bool)
    (seeds seeds2 : List (Fin n))
    (hSymA : ∀ a b, b ∈ adjA a → a ∈ adjA b)
    (hSymB : ∀ a b, b ∈ adjB a → a ∈ adjB b)
    (hconfB : ∀ a b, b ∈ adjB a → mask a = true ∧ mask b = true)
    (hseeds : ∀ f, f ∈ seeds ↔ mask f = true)
    (hseeds2 : ∀ f, f ∈ seeds2 ↔ mask f = true) :
    List.Pairwise (fun r₁ r₂ => ∀ g ∈ r₁, g ∉ r₂)
      (find_connected_overhang_regions n adjA mask seeds) ∧
    (∀ f, mask f = true →
      ∃ r ∈ find_connected_overhang_regions n adjA mask seeds, f ∈ r) ∧
    (∀ r ∈ find_connected_overhang_regions n adjA mask seeds, r.Nodup ∧
      ∀ f ∈ r, ∀ g, (g ∈ r ↔ ReflTransGen (Rm n adjA mask) f g)) ∧
    ((find_connected_overhang_regions n adjA mask seeds).map
        List.toFinset).toFinset =
      ((find_connected_overhang_regions n adjA mask seeds2).map
        List.toFinset).toFinset ∧
    List.Pairwise (fun r₁ r₂ => ∀ g ∈ r₁, g ∉ r₂)
      (findConnectedRegions n adjB seeds) ∧
    (∀ f, mask f = true →
      ∃ r ∈ findConnectedRegions n adjB seeds, f ∈ r) ∧
    (∀ r ∈ findConnectedRegions n adjB seeds, r.Nodup ∧
      ∀ f ∈ r, ∀ g, (g ∈ r ↔ ReflTransGen (AdjRel n adjB) f g)) ∧
    (∀ r ∈ findConnectedRegions n adjB seeds, ∀ g ∈ r, mask g = true) ∧
    ((findConnectedRegions n adjB seeds).map List.toFinset).toFinset =
      ((findConnectedRegions n adjB seeds2).map List.toFinset).toFinset := by
  obtain ⟨qa1, qa2, qa3⟩ := findRegionsA_spec n adjA mask hSymA seeds ∅
    (fun f hf => (hseeds f).mp hf) (fun a b _ ha => absurd ha (by simp))
  obtain ⟨qb1, qb2, qb3⟩ := findRegionsB_spec n adjB hSymB seeds ∅
    (fun a b _ ha => absurd ha (by simp))
  have hpermB := sortB_perm n adjB seeds
  have hpermB2 := sortB_perm n adjB seeds2
  refine ⟨qa3, ?_, ?_, ?_, ?_, ?_, ?_, ?_, ?_⟩
  · intro f hfm
    exact qa2 f ((hseeds f).mpr hfm) (by simp)
  · intro r hr
    obtain ⟨⟨t, _, hch⟩, hnd, _⟩ := qa1 r hr
    refine ⟨hnd, fun f hf g => ?_⟩
    rw [hch g, ← reach_congr (Rm_symm n adjA mask hSymA) ((hch f).mp hf)]
  · ext F
    simp only [List.mem_toFinset]
    rw [regionsA_char n adjA mask hSymA seeds hseeds F,
      regionsA_char n adjA mask hSymA seeds2 hseeds2 F]
  · exact (hpermB.pairwise_iff
      (by intro r₁ r₂ h g hg1 hg2; exact h g hg2 hg1)).mpr qb3
  · intro f hfm
    obtain ⟨r, hr, hfr⟩ := qb2 f ((hseeds f).mpr hfm) (by simp)
    exact ⟨r, hpermB.mem_iff.mpr hr, hfr⟩
  · intro r hr
    obtain ⟨⟨t, _, hch⟩, hnd, _⟩ := qb1 r (hpermB.mem_iff.mp hr)
    refine ⟨hnd, fun f hf g => ?_⟩
    rw [hch g,
      ← reach_congr (AdjRel_symm n adjB hSymB) ((hch f).mp hf)]
  · intro r hr g hg
    obtain ⟨⟨t, hts, hch⟩, _, _⟩ := qb1 r (hpermB.mem_iff.mp hr)
    exact rtg_closed (fun a b hab _ => (hconfB a b hab).2)
      ((hch g).mp hg) ((hseeds t).mp hts)
  · ext F
    simp only [List.mem_toFinset]
    rw [List.Perm.mem_iff (hpermB.map List.toFinset),
      List.Perm.mem_iff (hpermB2.map List.toFinset)]
    rw [regionsB_char n adjB mask hSymB seeds hseeds F,
      regionsB_char n adjB mask hSymB seeds2 hseeds2 F]

/-- Concrete two-candidate mesh used to instantiate C7: faces 0 and 1 are
candidates joined by an edge, face 2 is not a candidate. -/
def wAdj : Fin 3 → List (Fin 3) := ![[1], [0], []]

/-- Candidate mask for the C7 instance. -/
def wMask : Fin 3 → Bool := ![true, true, false]

/-- Witness for C7: the partition statement instantiated on the concrete
two-candidate mesh with both seed orders. -/
theorem claim_C7_region_growing_partition_witness :
    List.Pairwise (fun r₁ r₂ => ∀ g ∈ r₁, g ∉ r₂)
      (find_connected_overhang_regions 3 wAdj wMask [0, 1]) ∧
    (∀ f, wMask f = true →
      ∃ r ∈ find_connected_overhang_regions 3 wAdj wMask [0, 1], f ∈ r) ∧
    (∀ r ∈ find_connected_overhang_regions 3 wAdj wMask [0, 1], r.Nodup ∧
      ∀ f ∈ r, ∀ g, (g ∈ r ↔ ReflTransGen (Rm 3 wAdj wMask) f g)) ∧
    ((find_connected_overhang_regions 3 wAdj wMask [0, 1]).map
        List.toFinset).toFinset =
      ((find_connected_overhang_regions 3 wAdj wMask [1, 0]).map
        List.toFinset).toFinset ∧
    List.Pairwise (fun r₁ r₂ => ∀ g ∈ r₁, g ∉ r₂)
      (findConnectedRegions 3 wAdj [0, 1]) ∧
    (∀ f, wMask f = true →
      ∃ r ∈ findConnectedRegions 3 wAdj [0, 1], f ∈ r) ∧
    (∀ r ∈ findConnectedRegions 3 wAdj [0, 1], r.Nodup ∧
      ∀ f ∈ r, ∀ g, (g ∈ r ↔ ReflTransGen (AdjRel 3 wAdj) f g)) ∧
    (∀ r ∈ findConnectedRegions 3 wAdj [0, 1], ∀ g ∈ r, wMask g = true) ∧
    ((findConnectedRegions 3 wAdj [0, 1]).map List.toFinset).toFinset =
      ((findConnectedRegions 3 wAdj [1, 0]).map List.toFinset).toFinset :=
  claim_C7_region_growing_partition 3 wAdj wAdj wMask [0, 1] [1, 0]
    (by decide) (by decide) (by decide) (by decide) (by decide)

end Regions

